import Mathlib

/-!
# Verification of the GraphRAG knowledge-graph retrieval service

Shallow embedding, in Lean 4, of the parts of the service's Python source
that the specification's claims are about, together with proofs or
refutations of those claims.

Strings from the Python source are modelled as `List Char`; Python `dict`
insertion order is modelled with association lists; floating point scores
are modelled as rationals; Python's `eval` over branch conditions is
modelled by a small expression language covering the fragment exercised
here; side-effecting store calls are made explicit as returned values.
-/

namespace GraphRag

/-! ## Shared string machinery (Python `str` operations over `List Char`) -/

/-- ASCII upper-casing of one character, as Python `str.upper` acts on the
ASCII range (all keywords checked in the source are ASCII). -/
def upperChar (c : Char) : Char :=
  if 'a' ≤ c ∧ c ≤ 'z' then Char.ofNat (c.toNat - 32) else c

/-- ASCII lower-casing of one character, as Python `str.lower` acts on the
ASCII range. -/
def lowerChar (c : Char) : Char :=
  if 'A' ≤ c ∧ c ≤ 'Z' then Char.ofNat (c.toNat + 32) else c

/-- Python `s.upper()`. -/
def upperStr (s : List Char) : List Char := s.map upperChar

/-- Python `s.lower()`. -/
def lowerStr (s : List Char) : List Char := s.map lowerChar

/-- Python `s.strip()` from the left. -/
def stripLeft (s : List Char) : List Char := s.dropWhile Char.isWhitespace

/-- Python `s.strip()` from the right. -/
def stripRight (s : List Char) : List Char :=
  ((s.reverse.dropWhile Char.isWhitespace)).reverse

/-- Python `s.strip()`. -/
def pyStrip (s : List Char) : List Char := stripRight (stripLeft s)

/-- Python `needle in hay` for strings: contiguous substring containment. -/
def containsSub (needle : List Char) : List Char → Bool
  | [] => needle.isEmpty
  | c :: rest => needle.isPrefixOf (c :: rest) || containsSub needle rest

theorem containsSub_iff (needle hay : List Char) :
    containsSub needle hay = true ↔ ∃ pre post, hay = pre ++ needle ++ post := by
  induction hay with
  | nil =>
    simp only [containsSub, List.isEmpty_iff]
    constructor
    · intro h
      exact ⟨[], [], by simp [h]⟩
    · rintro ⟨pre, post, h⟩
      rcases pre <;> rcases needle <;> simp_all
  | cons c rest ih =>
    simp only [containsSub, Bool.or_eq_true, ih]
    constructor
    · rintro (h | ⟨pre, post, h⟩)
      · rw [List.isPrefixOf_iff_prefix] at h
        obtain ⟨t, ht⟩ := h
        exact ⟨[], t, by simp [ht.symm]⟩
      · exact ⟨c :: pre, post, by simp [h]⟩
    · rintro ⟨pre, post, h⟩
      cases pre with
      | nil =>
        left
        rw [List.isPrefixOf_iff_prefix]
        exact ⟨post, by simpa using h.symm⟩
      | cons p ps =>
        right
        refine ⟨ps, post, ?_⟩
        simp only [List.cons_append] at h
        exact (List.cons.injEq _ _ _ _ ▸ h).2

/-! ## Build progress registry (`app/routers/build.py`)

`_build_progress` is a process-wide Python dict from dataset id to a
progress record; `clear_progress` is the `DELETE /build/progress/{id}`
handler. -/

/-- The `status` field of a progress record. -/
inductive BuildStatus
  | idle
  | building
  | completed
  | error
deriving DecidableEq, Repr

/-- One in-memory progress record, with the fields `build_graphrag_task`
initialises. -/
structure ProgressRecord where
  status : BuildStatus
  total_documents : Nat := 0
  completed_documents : Nat := 0
  total_segments : Nat := 0
  completed_segments : Nat := 0
  skipped_segments : Nat := 0
  current_document : String := ""
  entities_extracted : Nat := 0
  relationships_extracted : Nat := 0
  error : Option String := none
  resume_mode : Bool := false
  docling_mode : Bool := false
deriving DecidableEq, Repr

/-- The `_build_progress` dict, as an association list in insertion order. -/
abbrev ProgressMap : Type := List (String × ProgressRecord)

/-- `clear_progress(dataset_id)`: `if dataset_id in _build_progress: del
_build_progress[dataset_id]`, then return the message.  Deletion is
unconditional on the record's status. -/
def clearProgress (m : ProgressMap) (d : String) : ProgressMap × String :=
  (if (List.lookup d m).isSome then
      List.filter (fun p => decide (p.1 ≠ d)) m
    else m,
   "Progress cleared")

theorem lookup_filter_ne_none (m : List (String × ProgressRecord)) (d : String) :
    List.lookup d (List.filter (fun p => decide (p.1 ≠ d)) m) = none := by
  induction m with
  | nil => rfl
  | cons p rest ih =>
    by_cases h : p.1 = d
    · simpa [List.filter_cons, h] using ih
    · have hb : (d == p.1) = false := beq_eq_false_iff_ne.mpr (Ne.symm h)
      simpa [List.filter_cons, h, List.lookup, hb] using ih

theorem filter_ne_of_lookup_none (m : List (String × ProgressRecord)) (d : String)
    (h : List.lookup d m = none) :
    List.filter (fun p => decide (p.1 ≠ d)) m = m := by
  induction m with
  | nil => rfl
  | cons p rest ih =>
    by_cases hp : d = p.1
    · simp [List.lookup, hp] at h
    · have hb : (d == p.1) = false := beq_eq_false_iff_ne.mpr hp
      simp only [List.lookup, hb] at h
      have hd : (decide (p.1 ≠ d)) = true := by simp [Ne.symm hp]
      rw [List.filter_cons, hd, if_pos rfl, ih h]

/-- C3, counterexample: the claim says `clear_progress(dataset_id)` is rejected
as a no-op while the dataset's progress record is in state `building`, leaving
the registry unchanged.  The handler deletes the record unconditionally, so the
claim fails at the one-entry registry whose record is in state `building`. -/
theorem C3_clear_progress_counterexample :
    ¬ (∀ (m : ProgressMap) (d : String) (r : ProgressRecord),
        List.lookup d m = some r → r.status = BuildStatus.building →
        (clearProgress m d).1 = m) := by
  intro h
  have h2 := h [("ds1", { status := .building })] "ds1" { status := .building }
    (by rfl) rfl
  exact absurd h2 (by decide)

/-- C3, amended: `clear_progress(dataset_id)` drops the in-memory record
whenever one is present, regardless of its status (including `building`), and
answers "Progress cleared"; afterwards no record for the dataset remains. -/
theorem C3_clear_progress_amended (m : ProgressMap) (d : String) :
    (clearProgress m d).1 = List.filter (fun p => decide (p.1 ≠ d)) m ∧
    List.lookup d (clearProgress m d).1 = none ∧
    (clearProgress m d).2 = "Progress cleared" := by
  refine ⟨?_, ?_, rfl⟩
  · unfold clearProgress
    cases hl : List.lookup d m with
    | none => simpa [hl] using (filter_ne_of_lookup_none m d hl).symm
    | some v => simp [hl]
  · unfold clearProgress
    cases hl : List.lookup d m with
    | none => simp [hl]
    | some v => simpa [hl] using lookup_filter_ne_none m d

/-! ## Entity / relationship type coercion (`app/services/entity_extractor.py`)

`_map_entity_type` lower-cases and strips the LLM-emitted type string and
looks it up in an explicit dict, defaulting to `OTHER`;
`_map_relationship_type` upper-cases and strips and calls the
`RelationshipType` enum constructor, defaulting to `RELATED_TO` on
`ValueError`. -/

/-- The closed `EntityType` enum (`app/models/entity.py`). -/
inductive EntityType
  | person | organization | location | date | concept | product
  | event | technology | document | topic | other
deriving DecidableEq, Repr

/-- The closed `RelationshipType` enum (`app/models/relationship.py`). -/
inductive RelationshipType
  | RELATED_TO | MENTIONS | WORKS_FOR | LOCATED_IN | PART_OF | CREATED_BY
  | BELONGS_TO | DEPENDS_ON | SIMILAR_TO | CAUSED_BY | LEADS_TO | CONTAINS
  | USES | IS_A | HAS | ABOUT | OTHER
deriving DecidableEq, Repr

/-- The `type_mapping` dict of `_map_entity_type` (note: the key "other" is
absent from the dict in the source; it is reached through the default). -/
def entityTypeMapping : List (List Char × EntityType) :=
  [("person".toList, .person), ("organization".toList, .organization),
   ("location".toList, .location), ("date".toList, .date),
   ("concept".toList, .concept), ("product".toList, .product),
   ("event".toList, .event), ("technology".toList, .technology),
   ("document".toList, .document), ("topic".toList, .topic)]

/-- `EntityExtractor._map_entity_type`. -/
def mapEntityType (s : List Char) : EntityType :=
  (List.lookup (pyStrip (lowerStr s)) entityTypeMapping).getD .other

/-- The value strings of the `RelationshipType` enum: the constructor
`RelationshipType(type_str)` succeeds exactly on these. -/
def relationshipTypeValues : List (List Char × RelationshipType) :=
  [("RELATED_TO".toList, .RELATED_TO), ("MENTIONS".toList, .MENTIONS),
   ("WORKS_FOR".toList, .WORKS_FOR), ("LOCATED_IN".toList, .LOCATED_IN),
   ("PART_OF".toList, .PART_OF), ("CREATED_BY".toList, .CREATED_BY),
   ("BELONGS_TO".toList, .BELONGS_TO), ("DEPENDS_ON".toList, .DEPENDS_ON),
   ("SIMILAR_TO".toList, .SIMILAR_TO), ("CAUSED_BY".toList, .CAUSED_BY),
   ("LEADS_TO".toList, .LEADS_TO), ("CONTAINS".toList, .CONTAINS),
   ("USES".toList, .USES), ("IS_A".toList, .IS_A), ("HAS".toList, .HAS),
   ("ABOUT".toList, .ABOUT), ("OTHER".toList, .OTHER)]

/-- `EntityExtractor._map_relationship_type`: upper-case and strip, try the
enum constructor, and on failure return `RELATED_TO`. -/
def mapRelationshipType (s : List Char) : RelationshipType :=
  (List.lookup (pyStrip (upperStr s)) relationshipTypeValues).getD .RELATED_TO

/-- C9, counterexample: the claim says every type string outside the closed
enums is coerced to `OTHER` for both entity and relationship types.  For
relationship types the fallback of `_map_relationship_type` is `RELATED_TO`,
not `OTHER`: the unknown string "banana" refutes the claim. -/
theorem C9_coerce_unknown_counterexample :
    ¬ (∀ s : List Char,
        List.lookup (pyStrip (upperStr s)) relationshipTypeValues = none →
        mapRelationshipType s = RelationshipType.OTHER) := by
  intro h
  have h2 := h "banana".toList (by decide)
  exact absurd h2 (by decide)

/-- C9, amended: a type string not in the closed enum is coerced rather than
failing the chunk, to `other` for entity types but to `RELATED_TO` (not
`OTHER`) for relationship types. -/
theorem C9_coerce_unknown_amended (s t : List Char)
    (he : List.lookup (pyStrip (lowerStr s)) entityTypeMapping = none)
    (hr : List.lookup (pyStrip (upperStr t)) relationshipTypeValues = none) :
    mapEntityType s = EntityType.other ∧
    mapRelationshipType t = RelationshipType.RELATED_TO := by
  unfold mapEntityType mapRelationshipType
  rw [he, hr]
  exact ⟨rfl, rfl⟩

/-- C9, witness: the amended coercion behaviour at the concrete unknown type
string "banana". -/
theorem C9_coerce_unknown_witness :
    mapEntityType "banana".toList = EntityType.other ∧
    mapRelationshipType "banana".toList = RelationshipType.RELATED_TO :=
  C9_coerce_unknown_amended "banana".toList "banana".toList (by decide) (by decide)

/-! ## Intent matching (`app/services/flow_store.py`, `match_intent`)

The source issues the Cypher query

  MATCH (n:FlowIntent) WHERE n.is_active = true
  AND ANY(keyword IN n.keywords WHERE $message CONTAINS keyword)
  RETURN n ORDER BY n.priority DESC LIMIT 1

over the stored intents.  Cypher `CONTAINS` is case-SENSITIVE substring
containment.  `ORDER BY ... DESC LIMIT 1` is modelled by sorting the
matching intents by descending priority (ties in unspecified store order;
the claims do not depend on tie order) and taking the head. -/

/-- A stored `FlowIntent` node, restricted to the properties the matching
query reads. -/
structure IntentNode where
  id : String
  name : List Char
  keywords : List (List Char)
  priority : Int
  is_active : Bool
deriving DecidableEq, Repr

/-- Descending-priority comparison used for `ORDER BY n.priority DESC`. -/
def priorityGe (a b : IntentNode) : Prop := b.priority ≤ a.priority

instance : DecidableRel priorityGe := fun a b => Int.decLe b.priority a.priority

instance : IsTotal IntentNode priorityGe := ⟨fun a b => le_total b.priority a.priority⟩

instance : IsTrans IntentNode priorityGe :=
  ⟨fun _ _ _ h1 h2 => le_trans h2 h1⟩

/-- Whether one stored intent matches the message: active, and some keyword
is contained (case-sensitively, as Cypher `CONTAINS`) in the message. -/
def intentMatches (message : List Char) (i : IntentNode) : Bool :=
  i.is_active && i.keywords.any (fun kw => containsSub kw message)

/-- `FlowStore.match_intent(user_message)`. -/
def matchIntent (intents : List IntentNode) (message : List Char) :
    Option IntentNode :=
  (List.insertionSort priorityGe (intents.filter (intentMatches message))).head?

/-- C8, counterexample: the claim says matching is by case-INSENSITIVE
keyword containment, so a message should match a keyword regardless of
letter case.  Cypher `CONTAINS` is case-sensitive: an active intent with
keyword "claim" does not match the message "Claim please", refuting the
claim. -/
theorem C8_match_intent_counterexample :
    ¬ (∀ (intents : List IntentNode) (msg : List Char) (i : IntentNode),
        i ∈ intents → i.is_active = true →
        (∃ kw ∈ i.keywords, containsSub (lowerStr kw) (lowerStr msg) = true) →
        (matchIntent intents msg).isSome = true) := by
  intro h
  have h2 := h [⟨"i1", "claim".toList, ["claim".toList], 1, true⟩]
    "Claim please".toList ⟨"i1", "claim".toList, ["claim".toList], 1, true⟩
    (by simp) rfl ⟨"claim".toList, by simp, by decide⟩
  exact absurd h2 (by decide)

/-- C8, amended: `match_intent` selects an intent by case-SENSITIVE
containment of one of its keywords in the message, among active intents,
and a highest-priority matching intent wins; some intent is returned
whenever any active intent has a keyword contained in the message. -/
theorem C8_match_intent_amended (intents : List IntentNode) (msg : List Char) :
    (∀ i, matchIntent intents msg = some i →
        i ∈ intents ∧ i.is_active = true ∧
        (∃ kw ∈ i.keywords, containsSub kw msg = true) ∧
        ∀ j ∈ intents, j.is_active = true →
          (∃ kw ∈ j.keywords, containsSub kw msg = true) →
          j.priority ≤ i.priority) ∧
    ((∃ i ∈ intents, i.is_active = true ∧
        ∃ kw ∈ i.keywords, containsSub kw msg = true) →
      (matchIntent intents msg).isSome = true) := by
  constructor
  · intro i hi
    unfold matchIntent at hi
    have hperm := List.perm_insertionSort priorityGe (intents.filter (intentMatches msg))
    have hsort := List.sorted_insertionSort priorityGe (intents.filter (intentMatches msg))
    cases hs : List.insertionSort priorityGe (intents.filter (intentMatches msg)) with
    | nil => rw [hs] at hi; simp at hi
    | cons a l =>
      rw [hs] at hi hperm hsort
      simp only [List.head?] at hi
      have hb : i = a := by injection hi with h; exact h.symm
      subst hb
      have hfilt : i ∈ intents.filter (intentMatches msg) :=
        hperm.mem_iff.mp (List.mem_cons_self _ _)
      have hmem2 := List.mem_filter.mp hfilt
      have hmatch : intentMatches msg i = true := hmem2.2
      simp only [intentMatches, Bool.and_eq_true, List.any_eq_true] at hmatch
      refine ⟨hmem2.1, hmatch.1, ?_, ?_⟩
      · obtain ⟨kw, hkw, hc⟩ := hmatch.2
        exact ⟨kw, hkw, hc⟩
      · intro j hj hja hjk
        have hjf : j ∈ intents.filter (intentMatches msg) := by
          refine List.mem_filter.mpr ⟨hj, ?_⟩
          simp only [intentMatches, Bool.and_eq_true, List.any_eq_true]
          obtain ⟨kw, hkw, hc⟩ := hjk
          exact ⟨hja, kw, hkw, hc⟩
        have hjs : j ∈ i :: l := hperm.mem_iff.mpr hjf
        rcases List.mem_cons.mp hjs with h | h
        · subst h; exact le_refl _
        · exact List.rel_of_sorted_cons hsort j h
  · rintro ⟨i, hi, hia, kw, hkw, hc⟩
    have hf : i ∈ intents.filter (intentMatches msg) := by
      refine List.mem_filter.mpr ⟨hi, ?_⟩
      simp only [intentMatches, Bool.and_eq_true, List.any_eq_true]
      exact ⟨hia, kw, hkw, hc⟩
    have : i ∈ List.insertionSort priorityGe (intents.filter (intentMatches msg)) :=
      (List.perm_insertionSort _ _).mem_iff.mpr hf
    unfold matchIntent
    cases hs : List.insertionSort priorityGe (intents.filter (intentMatches msg)) with
    | nil => rw [hs] at this; simp at this
    | cons a l => simp

/-- C8, witness: the amended matching behaviour at a concrete store with one
active intent whose keyword "claim" occurs (case-sensitively) in the message
"claim now". -/
theorem C8_match_intent_witness :
    (matchIntent [⟨"i1", "claim".toList, ["claim".toList], 1, true⟩]
      "claim now".toList).isSome = true :=
  (C8_match_intent_amended _ _).2
    ⟨⟨"i1", "claim".toList, ["claim".toList], 1, true⟩, by simp, rfl,
      "claim".toList, by simp, by decide⟩

/-! ## Session store (`app/services/session_store.py`)

Sessions live in Redis under key `conv_session:<id>`; every save goes
through `_save_state`, which calls `SETEX key ttl data` with the full
`DEFAULT_TTL`.  The store is modelled as a map from session id to the
stored state together with its absolute expiry instant; `GET` of a key at
or past its expiry observes nothing. -/

/-- `ConversationState`, the per-session state saved in Redis.  Timestamps
are instants (seconds). -/
structure SessionState where
  session_id : String
  current_intent : Option String := none
  current_node_id : Option String := none
  collected_values : List (String × String) := []
  conversation_history : List (String × String) := []
  document_context : Option String := none
  created_at : Nat := 0
  updated_at : Nat := 0
  expires_at : Nat := 0
deriving DecidableEq, Repr

/-- The Redis keyspace: session id to stored state and absolute expiry. -/
abbrev SessionDB := String → Option (SessionState × Nat)

/-- `SessionStore.DEFAULT_TTL = 3600 * 24`. -/
def SESSION_TTL : Nat := 3600 * 24

/-- `SessionStore._save_state`: `SETEX` with the full TTL. -/
def saveState (db : SessionDB) (st : SessionState) (now : Nat) : SessionDB :=
  fun k => if k = st.session_id then some (st, now + SESSION_TTL) else db k

/-- `SessionStore.get_session`: a key at or past its expiry is gone. -/
def getSession (db : SessionDB) (sid : String) (now : Nat) : Option SessionState :=
  match db sid with
  | some (st, exp) => if now < exp then some st else none
  | none => none

/-- `SessionStore.create_session`: fresh id, empty state, saved with full TTL. -/
def createSession (db : SessionDB) (freshId : String) (now : Nat) :
    SessionState × SessionDB :=
  let st : SessionState :=
    { session_id := freshId, created_at := now, updated_at := now,
      expires_at := now + SESSION_TTL }
  (st, saveState db st now)

/-- `SessionStore.update_session`: refresh `updated_at` and save. -/
def updateSession (db : SessionDB) (st : SessionState) (now : Nat) : SessionDB :=
  saveState db { st with updated_at := now } now

/-- Python dict update `d[k] = v` on an association list. -/
def assocSet (l : List (String × String)) (k v : String) :
    List (String × String) :=
  if (List.lookup k l).isSome then
    l.map (fun p => if p.1 = k then (k, v) else p)
  else l ++ [(k, v)]

/-- `SessionStore.set_value`: load, set one collected value, save. -/
def setValue (db : SessionDB) (sid key value : String) (now : Nat) : SessionDB :=
  match getSession db sid now with
  | none => db
  | some st =>
      updateSession db
        { st with collected_values := assocSet st.collected_values key value } now

/-- `SessionStore.add_message`: append to history, trim to the last 50, save. -/
def addMessage (db : SessionDB) (sid role content : String) (now : Nat) :
    SessionDB :=
  match getSession db sid now with
  | none => db
  | some st =>
      let history := st.conversation_history ++ [(role, content)]
      let history := if 50 < history.length then
          history.drop (history.length - 50) else history
      updateSession db { st with conversation_history := history } now

/-- `SessionStore.reset_session`: zero intent/node/collected values, keep
history, save. -/
def resetSession (db : SessionDB) (sid : String) (now : Nat) : SessionDB :=
  match getSession db sid now with
  | none => db
  | some st =>
      updateSession db
        { st with current_intent := none, current_node_id := none,
                  collected_values := [] } now

theorem updateSession_expiry (db : SessionDB) (st : SessionState) (now : Nat) :
    updateSession db st now st.session_id =
      some ({ st with updated_at := now }, now + SESSION_TTL) := by
  simp [updateSession, saveState]

theorem updateSession_lookup (db : SessionDB) (st : SessionState) (now : Nat)
    (sid : String) (h : st.session_id = sid) :
    updateSession db st now sid =
      some ({ st with updated_at := now }, now + SESSION_TTL) := by
  simp [updateSession, saveState, h]

theorem getSession_none_of_expired (db : SessionDB) (sid : String)
    (st : SessionState) (exp t : Nat) (hdb : db sid = some (st, exp))
    (ht : exp ≤ t) : getSession db sid t = none := by
  simp [getSession, hdb, Nat.not_lt_of_le ht]

/-- C7: every write to a session (create, update, set-value, add-message,
reset) stores it with expiry exactly the write instant plus the full TTL of
24 hours, and a session whose expiry has passed without a further write is
unobservable to reads. -/
theorem C7_session_ttl_refresh (db : SessionDB) (st : SessionState)
    (sid freshId role content key value : String) (now t : Nat)
    (hlive : getSession db sid now = some st)
    (hkey : st.session_id = sid)
    (hexp : now + SESSION_TTL ≤ t) :
    SESSION_TTL = 24 * 3600 ∧
    ((createSession db freshId now).2 freshId =
        some ((createSession db freshId now).1, now + SESSION_TTL)) ∧
    (updateSession db st now st.session_id =
        some ({ st with updated_at := now }, now + SESSION_TTL)) ∧
    (∃ st₁, setValue db sid key value now sid = some (st₁, now + SESSION_TTL)) ∧
    (∃ st₂, addMessage db sid role content now sid = some (st₂, now + SESSION_TTL)) ∧
    (∃ st₃, resetSession db sid now sid = some (st₃, now + SESSION_TTL)) ∧
    getSession (updateSession db st now) st.session_id t = none ∧
    getSession (setValue db sid key value now) sid t = none := by
  refine ⟨rfl, by simp [createSession, saveState], updateSession_expiry db st now,
    ?_, ?_, ?_, ?_, ?_⟩
  · simp only [setValue, hlive]
    exact ⟨_, updateSession_lookup db _ now sid hkey⟩
  · simp only [addMessage, hlive]
    exact ⟨_, updateSession_lookup db _ now sid hkey⟩
  · simp only [resetSession, hlive]
    exact ⟨_, updateSession_lookup db _ now sid hkey⟩
  · simp [updateSession, saveState, getSession, Nat.not_lt_of_le hexp]
  · simp only [setValue, hlive]
    simp [updateSession, saveState, getSession, hkey, Nat.not_lt_of_le hexp]

/-- C7, witness: the TTL behaviour at a concrete store holding one live
session "s1" written at instant 0 and read at instant 86400. -/
theorem C7_session_ttl_refresh_witness :
    getSession (setValue
        (fun k => if k = "s1" then some ({ session_id := "s1" }, 100) else none)
        "s1" "k" "v" 0) "s1" 86400 = none :=
  (C7_session_ttl_refresh
      (fun k => if k = "s1" then some ({ session_id := "s1" }, 100) else none)
      { session_id := "s1" } "s1" "f" "user" "hello" "k" "v" 0 86400
      (by simp [getSession]) rfl (by simp [SESSION_TTL])).2.2.2.2.2.2.2

/-! ## Branch-condition evaluation (`app/services/flow_store.py`)

`FlowStore._evaluate_condition` runs `eval(condition_expr,
{"__builtins__": {}}, values)` and returns `False` on any exception;
`get_next_conditions` builds the evaluation context as
`{**collected_values, "intent": current_intent}` and prunes a BRANCH edge
whose condition does not evaluate truthy.  Python `eval` accepts arbitrary
expressions; it is modelled here by an expression language covering the
fragment relevant to the claims (literals, identifier lookup, `==`, `!=`,
`<`, `in`, `and`, `or`, `not`, and `+` as a representative operator outside
the spec's restricted set), with `none` as the evaluation of an expression
that raises. -/

/-- Python values occurring in branch-condition contexts. -/
inductive PyVal
  | vStr (s : List Char)
  | vInt (n : Int)
  | vBool (b : Bool)
  | vNone
deriving DecidableEq, Repr

/-- Python expressions (the fragment of what `eval` accepts that is
exercised here). -/
inductive PyExpr
  | litE (v : PyVal)
  | varE (x : String)
  | eqE (a b : PyExpr)
  | neE (a b : PyExpr)
  | ltE (a b : PyExpr)
  | memE (a b : PyExpr)
  | andE (a b : PyExpr)
  | orE (a b : PyExpr)
  | notE (a : PyExpr)
  | addE (a b : PyExpr)
deriving DecidableEq, Repr

/-- Python `==` on the modelled values (`True == 1` in Python). -/
def pyEq : PyVal → PyVal → Bool
  | .vStr a, .vStr b => a == b
  | .vInt a, .vInt b => a == b
  | .vBool a, .vBool b => a == b
  | .vBool a, .vInt b => (if a then (1 : Int) else 0) == b
  | .vInt a, .vBool b => a == (if b then (1 : Int) else 0)
  | .vNone, .vNone => true
  | _, _ => false

/-- Python truthiness of the modelled values. -/
def pyTruthy : PyVal → Bool
  | .vStr s => !s.isEmpty
  | .vInt n => n != 0
  | .vBool b => b
  | .vNone => false

/-- Lexicographic comparison of Python strings. -/
def listLt : List Char → List Char → Bool
  | [], [] => false
  | [], _ :: _ => true
  | _ :: _, [] => false
  | a :: as, b :: bs => if a < b then true else if b < a then false else listLt as bs

/-- Python `<` on the modelled values (`none` models `TypeError`). -/
def pyLt : PyVal → PyVal → Option Bool
  | .vInt a, .vInt b => some (decide (a < b))
  | .vStr a, .vStr b => some (listLt a b)
  | _, _ => none

/-- Python `in` on the modelled values: substring containment for strings. -/
def pyMem : PyVal → PyVal → Option Bool
  | .vStr a, .vStr b => some (containsSub a b)
  | _, _ => none

/-- Python `+` on the modelled values. -/
def pyAdd : PyVal → PyVal → Option PyVal
  | .vInt a, .vInt b => some (.vInt (a + b))
  | .vStr a, .vStr b => some (.vStr (a ++ b))
  | _, _ => none

/-- Evaluation of the modelled expressions, as Python `eval` with empty
builtins over the given name context; `none` models a raised exception
(`NameError`, `TypeError`, ...).  `and`/`or` short-circuit and return one
of their operand values, as in Python. -/
def evalPy (ctx : String → Option PyVal) : PyExpr → Option PyVal
  | .litE v => some v
  | .varE x => ctx x
  | .eqE a b => do
      let va ← evalPy ctx a
      let vb ← evalPy ctx b
      some (.vBool (pyEq va vb))
  | .neE a b => do
      let va ← evalPy ctx a
      let vb ← evalPy ctx b
      some (.vBool (!pyEq va vb))
  | .ltE a b => do
      let va ← evalPy ctx a
      let vb ← evalPy ctx b
      let r ← pyLt va vb
      some (.vBool r)
  | .memE a b => do
      let va ← evalPy ctx a
      let vb ← evalPy ctx b
      let r ← pyMem va vb
      some (.vBool r)
  | .andE a b => do
      let va ← evalPy ctx a
      if pyTruthy va then evalPy ctx b else some va
  | .orE a b => do
      let va ← evalPy ctx a
      if pyTruthy va then some va else evalPy ctx b
  | .notE a => do
      let va ← evalPy ctx a
      some (.vBool (!pyTruthy va))
  | .addE a b => do
      let va ← evalPy ctx a
      let vb ← evalPy ctx b
      pyAdd va vb

/-- `FlowStore._evaluate_condition`: evaluate, and return `False` on any
exception.  (Its Python return annotation is `bool`, but it returns the raw
`eval` result; truthiness is applied at the caller.) -/
def evaluateCondition (e : PyExpr) (ctx : String → Option PyVal) : PyVal :=
  (evalPy ctx e).getD (PyVal.vBool false)

/-- The value bound to `"intent"` in the evaluation context. -/
def intentVal : Option (List Char) → PyVal
  | some s => .vStr s
  | none => .vNone

/-- The context `{**collected_values, "intent": current_intent}` of
`get_next_conditions`. -/
def mkEvalContext (collected : String → Option PyVal)
    (intent : Option (List Char)) : String → Option PyVal :=
  fun x => if x = "intent" then some (intentVal intent) else collected x

/-- A stored `FlowCondition` node (the fields the walk reads). -/
structure ConditionNode where
  id : String
  name : String
deriving DecidableEq, Repr

/-- The relationship types traversed by `get_next_conditions`. -/
inductive EdgeRelType
  | NEXT
  | BRANCH
deriving DecidableEq, Repr

/-- One row of the `NEXT|BRANCH` query of `get_next_conditions`: the target
condition, the edge's `condition` property, and the relationship type. -/
structure NextRow where
  next : ConditionNode
  branch_condition : Option PyExpr
  rel_type : EdgeRelType
deriving Repr

/-- `FlowStore.get_next_conditions`: keep every `NEXT` target and every
`BRANCH` target with no stored condition; evaluate a stored `BRANCH`
condition over the context and skip the edge unless the result is truthy. -/
def getNextConditions (rows : List NextRow)
    (collected : String → Option PyVal) (intent : Option (List Char)) :
    List ConditionNode :=
  rows.filterMap (fun row =>
    match row.rel_type, row.branch_condition with
    | EdgeRelType.BRANCH, some c =>
        if pyTruthy (evaluateCondition c (mkEvalContext collected intent)) then
          some row.next
        else none
    | _, _ => some row.next)

/-- Modelled from the spec: the "restricted to boolean combinations of
equality/inequality, membership, and string comparison" expression class,
over identifier lookups and literals, against which the evaluator is
compared. -/
def isRestrictedAtom : PyExpr → Bool
  | .litE _ => true
  | .varE _ => true
  | _ => false

/-- Modelled from the spec: boolean combinations (`and`, `or`, `not`) of
equality, inequality, membership and comparison over atoms. -/
def isRestricted : PyExpr → Bool
  | .eqE a b => isRestrictedAtom a && isRestrictedAtom b
  | .neE a b => isRestrictedAtom a && isRestrictedAtom b
  | .ltE a b => isRestrictedAtom a && isRestrictedAtom b
  | .memE a b => isRestrictedAtom a && isRestrictedAtom b
  | .andE a b => isRestricted a && isRestricted b
  | .orE a b => isRestricted a && isRestricted b
  | .notE a => isRestricted a
  | _ => false

/-- C2, counterexample: the claim says evaluation of a BRANCH
`condition_expr` is restricted to boolean combinations of
equality/inequality, membership and string comparison.  `_evaluate_condition`
hands the expression to general-purpose `eval`, which accepts arbitrary
expressions: the arithmetic expression `1 + 1` evaluates successfully (to a
truthy value that takes the branch) yet lies outside the restricted class. -/
theorem C2_branch_eval_counterexample :
    ¬ (∀ (e : PyExpr) (collected : String → Option PyVal)
        (intent : Option (List Char)),
        (evalPy (mkEvalContext collected intent) e).isSome = true →
        isRestricted e = true) := by
  intro h
  have h2 := h (.addE (.litE (.vInt 1)) (.litE (.vInt 1))) (fun _ => none) none rfl
  exact absurd h2 (by decide)

theorem getNextConditions_eq_filter (rows : List NextRow)
    (collected : String → Option PyVal) (intent : Option (List Char)) :
    getNextConditions rows collected intent =
      (rows.filter (fun row =>
        match row.rel_type, row.branch_condition with
        | EdgeRelType.BRANCH, some c =>
            pyTruthy (evaluateCondition c (mkEvalContext collected intent))
        | _, _ => true)).map (fun row => row.next) := by
  induction rows with
  | nil => rfl
  | cons row rest ih =>
    simp only [getNextConditions, List.filterMap_cons, List.filter_cons]
    cases hr : row.rel_type with
    | NEXT =>
      simp only [hr]
      cases row.branch_condition <;>
        simpa [getNextConditions] using ih
    | BRANCH =>
      cases hc : row.branch_condition with
      | none => simpa [hr, hc, getNextConditions] using ih
      | some c =>
        by_cases ht : pyTruthy (evaluateCondition c (mkEvalContext collected intent))
        · simpa [hr, hc, ht, getNextConditions] using ih
        · simpa [hr, hc, ht, getNextConditions] using ih

/-- C2, amended: the BRANCH condition is evaluated over a context containing
exactly `collected_values` plus the single binding `intent = current_intent`
(the binding shadows any collected key `"intent"`), edges whose condition
fails or evaluates falsy are pruned and `NEXT` edges always pass — but
evaluation is by a general-purpose evaluator (`eval` with emptied builtins),
not restricted to boolean combinations of equality/inequality, membership
and string comparison: expressions outside that class (e.g. arithmetic) are
evaluated and can take the branch. -/
theorem C2_branch_eval_amended (rows : List NextRow)
    (collected : String → Option PyVal) (intent : Option (List Char))
    (x : String) (hx : x ≠ "intent") :
    mkEvalContext collected intent "intent" = some (intentVal intent) ∧
    mkEvalContext collected intent x = collected x ∧
    getNextConditions rows collected intent =
      (rows.filter (fun row =>
        match row.rel_type, row.branch_condition with
        | EdgeRelType.BRANCH, some c =>
            pyTruthy (evaluateCondition c (mkEvalContext collected intent))
        | _, _ => true)).map (fun row => row.next) ∧
    (∀ e : PyExpr, evalPy (mkEvalContext collected intent) e = none →
        evaluateCondition e (mkEvalContext collected intent) = PyVal.vBool false) ∧
    (∃ e : PyExpr, isRestricted e = false ∧
        pyTruthy (evaluateCondition e (mkEvalContext collected intent)) = true) := by
  refine ⟨rfl, by simp [mkEvalContext, hx], getNextConditions_eq_filter rows collected intent,
    ?_, ?_⟩
  · intro e he
    simp [evaluateCondition, he]
  · exact ⟨.addE (.litE (.vInt 1)) (.litE (.vInt 1)), rfl, rfl⟩

/-- C2, witness: the amended statement at a concrete one-row flow graph and
an empty collected-values context. -/
theorem C2_branch_eval_witness :
    getNextConditions
        [⟨⟨"c2", "claim_reason"⟩, some (.eqE (.varE "intent")
            (.litE (.vStr "claim".toList))), EdgeRelType.BRANCH⟩]
        (fun _ => none) (some "claim".toList) =
      [⟨"c2", "claim_reason"⟩] := by
  have h := C2_branch_eval_amended
    [⟨⟨"c2", "claim_reason"⟩, some (.eqE (.varE "intent")
        (.litE (.vStr "claim".toList))), EdgeRelType.BRANCH⟩]
    (fun _ => none) (some "claim".toList) "other_key" (by decide)
  rw [h.2.2.1]
  rfl

/-! ## Conversation turns (`app/services/conversation_engine.py`)

`ConversationEngine.process_message` fetches or creates the session, builds
the initial workflow state from it, invokes the LangGraph workflow (modelled
as a function argument that may fail), writes the session back, and returns
a `ConversationResponse` carrying the session's id.  The store-facing ids
are as in the session-store model above. -/

/-- `SessionStore.get_or_create_session`. -/
def getOrCreateSession (db : SessionDB) (sid? : Option String)
    (freshId : String) (now : Nat) : SessionState × SessionDB :=
  match sid? with
  | some s =>
      match getSession db s now with
      | some st => (st, db)
      | none => createSession db freshId now
  | none => createSession db freshId now

/-- `ConversationMessage`, the chat request body. -/
structure ConversationMessage where
  session_id : Option String := none
  message : String
  selected_option : Option String := none
  dataset_id : Option String := none
deriving DecidableEq, Repr

/-- The workflow state dict, restricted to the fields `process_message`
reads or writes. -/
structure WorkflowState where
  session_id : String
  user_message : String
  original_query : Option String := none
  selected_option : Option String := none
  dataset_id : Option String := none
  current_intent : Option String := none
  current_node_id : Option String := none
  collected_values : List (String × String) := []
  conversation_history : List (String × String) := []
  document_context : Option String := none
  response_message : String := ""
  needs_input : Bool := false
  input_type : Option String := none
  options : Option (List (String × String)) := none
  final_answer : Option String := none
  is_complete : Bool := false
  error : Option String := none
deriving DecidableEq, Repr

/-- `ConversationResponse`, the chat response body. -/
structure ConversationResponse where
  session_id : String
  message : String
  needs_input : Bool := false
  input_type : Option String := none
  options : Option (List (String × String)) := none
  is_complete : Bool := false
  answer : Option String := none
  current_intent : Option String := none
  collected_values : List (String × String) := []
deriving DecidableEq, Repr

/-- `ConversationEngine.process_message`, with the LangGraph workflow
invocation abstracted as a function that either returns the final workflow
state or raises. -/
def processMessage (workflow : WorkflowState → Except String WorkflowState)
    (db : SessionDB) (msg : ConversationMessage) (freshId : String)
    (now : Nat) : ConversationResponse × SessionDB :=
  let pair := getOrCreateSession db msg.session_id freshId now
  let session_state := pair.1
  let db1 := pair.2
  let initial : WorkflowState :=
    { session_id := session_state.session_id,
      user_message := msg.message,
      original_query :=
        List.lookup "__original_query__" session_state.collected_values,
      selected_option := msg.selected_option,
      dataset_id := msg.dataset_id,
      current_intent := session_state.current_intent,
      current_node_id := session_state.current_node_id,
      collected_values := session_state.collected_values,
      conversation_history := session_state.conversation_history,
      document_context := session_state.document_context }
  match workflow initial with
  | .error e =>
      ({ session_id := session_state.session_id,
         message := "처리 중 오류가 발생했습니다: " ++ e,
         is_complete := true }, db1)
  | .ok final =>
      let session2 : SessionState :=
        { session_state with
          current_intent := final.current_intent,
          current_node_id := final.current_node_id,
          collected_values := final.collected_values,
          document_context := final.document_context }
      let db2 := addMessage db1 session_state.session_id "user" msg.message now
      let db3 :=
        if final.response_message ≠ "" then
          addMessage db2 session_state.session_id "assistant"
            final.response_message now
        else db2
      let db4 := updateSession db3 session2 now
      ({ session_id := session_state.session_id,
         message := final.response_message,
         needs_input := final.needs_input,
         input_type := final.input_type,
         options := final.options,
         is_complete := final.is_complete,
         answer := final.final_answer,
         current_intent := final.current_intent,
         collected_values := final.collected_values }, db4)

/-- C10: a turn arriving with a session id that is unknown or expired never
fails with a not-found error: the engine silently creates a brand-new
session under a freshly generated id with empty state (no intent, no
collected values, empty history), processes the turn under it — whether the
workflow succeeds or raises — and the response carries the new session id
rather than the one the client sent. -/
theorem C10_unknown_session (workflow : WorkflowState → Except String WorkflowState)
    (db : SessionDB) (msg : ConversationMessage) (freshId s : String) (now : Nat)
    (hsid : msg.session_id = some s)
    (hdead : getSession db s now = none)
    (hfresh : freshId ≠ s) :
    (getOrCreateSession db msg.session_id freshId now).1 =
      { session_id := freshId, current_intent := none, current_node_id := none,
        collected_values := [], conversation_history := [],
        document_context := none, created_at := now, updated_at := now,
        expires_at := now + SESSION_TTL } ∧
    (processMessage workflow db msg freshId now).1.session_id = freshId ∧
    (processMessage workflow db msg freshId now).1.session_id ≠ s := by
  have hsess : (getOrCreateSession db msg.session_id freshId now).1 =
      { session_id := freshId, created_at := now, updated_at := now,
        expires_at := now + SESSION_TTL } := by
    simp [getOrCreateSession, hsid, hdead, createSession]
  refine ⟨hsess, ?_, ?_⟩
  · simp only [processMessage, hsess]
    split <;> rfl
  · simp only [processMessage, hsess]
    split <;> exact hfresh

/-- C10, witness: the fresh-session behaviour at an empty store, a client
session id "dead-session" and an identity workflow. -/
theorem C10_unknown_session_witness :
    (processMessage Except.ok (fun _ => none)
        { session_id := some "dead-session", message := "hello" }
        "fresh-id" 0).1.session_id = "fresh-id" :=
  (C10_unknown_session Except.ok (fun _ => none)
      { session_id := some "dead-session", message := "hello" }
      "fresh-id" "dead-session" 0 rfl rfl (by decide)).2.1

/-! ## Dataset export / import (`app/routers/backup.py`, `graph_store.py`)

The graph store keeps, per entity node, exactly the properties
`create_entities_batch` SETs (the volatile `updated_at` timestamp is left
out of the model).  `export_dataset` returns the stored entity dicts of a
dataset; `import_dataset` with `merge=false` deletes the dataset and
re-creates entities from the export, reading only the fields
`id, name, type, description, aliases, source_document_id, source_chunk_id`
— `confidence`, `properties` and `source_page` are not read and fall back
to the pydantic defaults.  (The relationship leg of the importer is not
modelled; the entity leg alone already settles the claim.) -/

/-- An entity node as stored by `GraphStore.create_entities_batch`
(`etype` is the node's `type` property; `properties` is the stringified
auxiliary dict). -/
structure StoredEntity where
  id : String
  name : String
  etype : String
  description : Option String
  aliases : List String
  properties : String
  source_document_id : Option String
  source_chunk_id : Option String
  confidence : ℚ
  dataset_id : String
deriving DecidableEq, Repr

/-- The pydantic `Entity` model with its defaults (`properties` is kept in
its stringified form; `embedding` is irrelevant to the stores modelled
here). -/
structure Entity where
  id : Option String := none
  name : String
  etype : String
  description : Option String := none
  aliases : List String := []
  properties : String := "{}"
  source_document_id : Option String := none
  source_chunk_id : Option String := none
  source_page : Option Nat := none
  confidence : ℚ := 1
deriving DecidableEq, Repr

/-- The node id under which an entity is merged:
`entity.id or f"{dataset_id}_{entity.name}"`. -/
def storedId (e : Entity) (ds : String) : String :=
  e.id.getD (ds ++ "_" ++ e.name)

/-- The node written by `create_entities_batch` for one entity.  Note
`source_page` is not among the SET properties. -/
def toStored (e : Entity) (ds : String) : StoredEntity :=
  { id := storedId e ds, name := e.name, etype := e.etype,
    description := e.description, aliases := e.aliases,
    properties := e.properties,
    source_document_id := e.source_document_id,
    source_chunk_id := e.source_chunk_id,
    confidence := e.confidence, dataset_id := ds }

/-- Cypher `MERGE (e:Entity {id: ...}) SET ...`: update in place if the id
exists, else append. -/
def upsertEntity (acc : List StoredEntity) (se : StoredEntity) :
    List StoredEntity :=
  if acc.any (fun x => x.id == se.id) then
    acc.map (fun x => if x.id == se.id then se else x)
  else acc ++ [se]

/-- `GraphStore.create_entities_batch`. -/
def createEntitiesBatch (st : List StoredEntity) (entities : List Entity)
    (ds : String) : List StoredEntity :=
  entities.foldl (fun acc e => upsertEntity acc (toStored e ds)) st

/-- `GraphStore.delete_dataset`. -/
def deleteDataset (st : List StoredEntity) (ds : String) : List StoredEntity :=
  st.filter (fun e => decide (e.dataset_id ≠ ds))

/-- `export_dataset`: the stored entity dicts of the dataset. -/
def exportDataset (st : List StoredEntity) (ds : String) : List StoredEntity :=
  st.filter (fun e => decide (e.dataset_id = ds))

/-- The `Entity` objects rebuilt by `import_dataset` from an exported dict:
only id, name, type, description, aliases and the two source ids are read;
`confidence`, `properties` and `source_page` revert to defaults. -/
def reimportEntity (d : StoredEntity) : Entity :=
  { id := some d.id, name := d.name, etype := d.etype,
    description := d.description, aliases := d.aliases,
    source_document_id := d.source_document_id,
    source_chunk_id := d.source_chunk_id }

/-- `import_dataset` with `merge=false` (entity leg): delete the dataset
from the store, rebuild `Entity` objects from the export, batch-create. -/
def importDataset (st : List StoredEntity) (exported : List StoredEntity)
    (ds : String) : List StoredEntity :=
  createEntitiesBatch (deleteDataset st ds) (exported.map reimportEntity) ds

theorem createEntitiesBatch_append (st : List StoredEntity)
    (entities : List Entity) (ds : String)
    (hfresh : ∀ e ∈ entities, ∀ x ∈ st, x.id ≠ storedId e ds)
    (hnodup : (entities.map (fun e => storedId e ds)).Nodup) :
    createEntitiesBatch st entities ds =
      st ++ entities.map (fun e => toStored e ds) := by
  induction entities generalizing st with
  | nil => simp [createEntitiesBatch]
  | cons e rest ih =>
    have hany : (st.any (fun x => x.id == storedId e ds)) = false := by
      rw [List.any_eq_false]
      intro x hx
      simpa using hfresh e (List.mem_cons_self _ _) x hx
    have step : upsertEntity st (toStored e ds) = st ++ [toStored e ds] := by
      unfold upsertEntity
      rw [show ((toStored e ds).id) = storedId e ds from rfl, hany]
      simp
    have hnodup' : ((rest.map (fun x => storedId x ds))).Nodup :=
      (List.nodup_cons.mp (by simpa using hnodup)).2
    have hhead : storedId e ds ∉ rest.map (fun x => storedId x ds) :=
      (List.nodup_cons.mp (by simpa using hnodup)).1
    have hfresh' : ∀ f ∈ rest, ∀ x ∈ st ++ [toStored e ds],
        x.id ≠ storedId f ds := by
      intro f hf x hx
      rcases List.mem_append.mp hx with hx | hx
      · exact hfresh f (List.mem_cons_of_mem _ hf) x hx
      · rcases List.mem_singleton.mp hx with rfl
        show storedId e ds ≠ storedId f ds
        intro hc
        exact hhead (hc ▸ List.mem_map_of_mem (fun x => storedId x ds) hf)
    calc createEntitiesBatch st (e :: rest) ds
        = createEntitiesBatch (st ++ [toStored e ds]) rest ds := by
          simp [createEntitiesBatch, step]
      _ = st ++ [toStored e ds] ++ rest.map (fun x => toStored x ds) :=
          ih _ hfresh' hnodup'
      _ = st ++ (e :: rest).map (fun x => toStored x ds) := by simp

/-- A concrete stored entity with a non-default confidence, exercising the
round-trip. -/
def acmeStored : StoredEntity :=
  { id := "e1", name := "Acme", etype := "organization",
    description := some "corp", aliases := ["ACME"], properties := "{}",
    source_document_id := some "doc1", source_chunk_id := some "doc1_seg_0",
    confidence := 1/2, dataset_id := "ds1" }

/-- C6, counterexample: the claim says `import(export(D))` with
`merge=false` restores the stored state of D up to field-by-field equality
on all stored attributes.  The importer does not read the exported
`confidence` (nor `properties`), so an entity stored with confidence 1/2
comes back with the default confidence 1. -/
theorem C6_roundtrip_counterexample :
    ¬ (∀ (st : List StoredEntity) (ds : String),
        (importDataset st (exportDataset st ds) ds).filter
            (fun e => decide (e.dataset_id = ds)) =
          st.filter (fun e => decide (e.dataset_id = ds))) := by
  intro h
  have h2 := h [acmeStored] "ds1"
  rw [show importDataset [acmeStored] (exportDataset [acmeStored] "ds1") "ds1" =
      [{ acmeStored with confidence := 1 }] from rfl] at h2
  simp only [List.filter, acmeStored, decide_True, decide_eq_true_eq] at h2
  simp only [List.cons.injEq, StoredEntity.mk.injEq] at h2
  norm_num at h2

/-- C6, amended: under the store's global id-uniqueness constraint,
`import(export(D))` with `merge=false` leaves other datasets untouched and
restores exactly the exported entities of D with their `id`, `name`,
`type`, `description`, `aliases`, `source_document_id` and
`source_chunk_id`, while `confidence` is reset to the default 1.0 and the
auxiliary `properties` string to the empty dict (and the relationship
attributes of D are likewise not carried over). -/
theorem C6_roundtrip_amended (st : List StoredEntity) (ds : String)
    (hids : (st.map (fun e => e.id)).Nodup) :
    importDataset st (exportDataset st ds) ds =
      st.filter (fun e => decide (e.dataset_id ≠ ds)) ++
        (st.filter (fun e => decide (e.dataset_id = ds))).map
          (fun d => { d with confidence := 1, properties := "{}" }) := by
  have hinj : ∀ x ∈ st, ∀ y ∈ st, x.id = y.id → x = y := by
    intro x hx y hy hxy
    exact List.inj_on_of_nodup_map hids hx hy hxy
  have hfresh : ∀ e ∈ (exportDataset st ds).map reimportEntity,
      ∀ x ∈ deleteDataset st ds, x.id ≠ storedId e ds := by
    intro e he x hx
    obtain ⟨d, hd, rfl⟩ := List.mem_map.mp he
    have hd2 := List.mem_filter.mp hd
    have hx2 := List.mem_filter.mp hx
    show x.id ≠ storedId (reimportEntity d) ds
    have hsid : storedId (reimportEntity d) ds = d.id := rfl
    rw [hsid]
    intro hc
    have : x = d := hinj x hx2.1 d hd2.1 hc
    subst this
    have h1 : decide (x.dataset_id ≠ ds) = true := hx2.2
    have h2 : decide (x.dataset_id = ds) = true := hd2.2
    simp at h1 h2
    exact h1 h2
  have hnodup : (((exportDataset st ds).map reimportEntity).map
      (fun e => storedId e ds)).Nodup := by
    have : ((exportDataset st ds).map reimportEntity).map
        (fun e => storedId e ds) = (exportDataset st ds).map (fun d => d.id) := by
      simp [Function.comp, reimportEntity, storedId]
    rw [this]
    exact List.Nodup.sublist (List.Sublist.map _ (List.filter_sublist st)) hids
  rw [importDataset, createEntitiesBatch_append _ _ _ hfresh hnodup]
  congr 1
  rw [List.map_map]
  apply List.map_congr_left
  intro d hd
  have hd2 := List.mem_filter.mp hd
  have hds : d.dataset_id = ds := by simpa using hd2.2
  simp [Function.comp, toStored, reimportEntity, storedId, hds]

/-- C6, witness: the amended round-trip at a concrete one-entity store whose
entity has confidence 1/2. -/
theorem C6_roundtrip_amended_witness :
    importDataset [acmeStored] (exportDataset [acmeStored] "ds1") "ds1" =
      [{ acmeStored with confidence := 1 }] := by
  rw [C6_roundtrip_amended _ _ (by decide)]
  decide

/-! ## Reciprocal rank fusion (`app/services/hybrid_search.py`)

`HybridSearch._rrf_fusion` builds a score dict (`scores[id] += 1/(k+rank+1)`
over each list) and an item dict in insertion order (vector items first, in
rank order, then graph-only items), then sorts the item dict's values by
score with Python's stable `sorted(..., reverse=True)`, overwrites each
item's `score` with the fused score and sets `source` to "hybrid" when the
item was seen in more than one list.  Scores are modelled as rationals.
Python's `sorted` is stable, so sorting by score descending equals sorting
by the lexicographic key (score descending, insertion index ascending);
the model sorts enumerated items by that total order. -/

/-- A pre-fusion result dict (vector hit or formatted graph hit): for graph
hits `score` carries the entity's confidence. -/
structure RawItem where
  id : String
  name : String := ""
  score : ℚ := 0
deriving DecidableEq, Repr

/-- An entry of the fusion's item dict: the copied fields plus the
accumulated `sources` list. -/
structure FItem where
  id : String
  name : String := ""
  origScore : ℚ := 0
  sources : List String := []
deriving DecidableEq, Repr

/-- A fused result after score overwrite and source labelling. -/
structure FusedItem where
  id : String
  name : String := ""
  score : ℚ := 0
  source : String := ""
  sources : List String := []
deriving DecidableEq, Repr

/-- One RRF increment: `1.0 / (k + rank + 1)`. -/
def rrfTerm (k rank : ℕ) : ℚ := 1 / (k + rank + 1)

/-- The default of the tunable `settings.rrf_k`. -/
def rrfK : ℕ := 60

/-- One iteration of the per-list loop of `_rrf_fusion`: bump the score of
the item's id and record the source, inserting the item on first sight. -/
def rrfStep (src : String) (k : ℕ) (acc : (String → ℚ) × List FItem)
    (p : ℕ × RawItem) : (String → ℚ) × List FItem :=
  let rank := p.1
  let item := p.2
  let newScores : String → ℚ :=
    fun i => if i = item.id then acc.1 i + rrfTerm k rank else acc.1 i
  let newItems : List FItem :=
    if acc.2.any (fun it => it.id == item.id) then
      acc.2.map (fun it =>
        if it.id == item.id then { it with sources := it.sources ++ [src] }
        else it)
    else
      acc.2 ++ [{ id := item.id, name := item.name, origScore := item.score,
                  sources := [src] }]
  (newScores, newItems)

/-- The stable descending sort key of `sorted(items.values(), key=lambda x:
scores[x["id"]], reverse=True)`: score strictly greater, or equal score and
earlier insertion index. -/
def fusedOrder (scores : String → ℚ) (a b : ℕ × FItem) : Prop :=
  scores b.2.id < scores a.2.id ∨
    (scores a.2.id = scores b.2.id ∧ a.1 ≤ b.1)

instance (scores : String → ℚ) : DecidableRel (fusedOrder scores) := by
  intro a b
  unfold fusedOrder
  infer_instance

instance (scores : String → ℚ) : IsTotal (ℕ × FItem) (fusedOrder scores) := by
  constructor
  intro a b
  unfold fusedOrder
  rcases lt_trichotomy (scores a.2.id) (scores b.2.id) with h | h | h
  · exact Or.inr (Or.inl h)
  · rcases le_total a.1 b.1 with h2 | h2
    · exact Or.inl (Or.inr ⟨h, h2⟩)
    · exact Or.inr (Or.inr ⟨h.symm, h2⟩)
  · exact Or.inl (Or.inl h)

instance (scores : String → ℚ) : IsTrans (ℕ × FItem) (fusedOrder scores) := by
  constructor
  intro a b c hab hbc
  unfold fusedOrder at *
  rcases hab with h1 | ⟨h1, h1i⟩ <;> rcases hbc with h2 | ⟨h2, h2i⟩
  · exact Or.inl (lt_trans h2 h1)
  · exact Or.inl (h2 ▸ h1)
  · exact Or.inl (h1 ▸ h2)
  · exact Or.inr ⟨h1.trans h2, le_trans h1i h2i⟩

/-- The two accumulation passes of `_rrf_fusion`: vector results first, then
graph results, starting from the empty score dict and item dict. -/
def fusionAcc (vec graph : List RawItem) (k : ℕ) :
    (String → ℚ) × List FItem :=
  (List.enumFrom 0 graph).foldl (rrfStep "graph" k)
    ((List.enumFrom 0 vec).foldl (rrfStep "vector" k) (fun _ => 0, []))

/-- The score dict after both passes. -/
def fusionScores (vec graph : List RawItem) (k : ℕ) : String → ℚ :=
  (fusionAcc vec graph k).1

/-- The item dict (in insertion order) after both passes. -/
def rawFusionItems (vec graph : List RawItem) (k : ℕ) : List FItem :=
  (fusionAcc vec graph k).2

/-- The final per-item overwrite of `_rrf_fusion`: `item["score"] =
scores[id]`, `item["source"] = "hybrid"` when seen in more than one list. -/
def mkFused (scores : String → ℚ) (it : FItem) : FusedItem :=
  { id := it.id, name := it.name, score := scores it.id,
    source := if 1 < it.sources.length then "hybrid"
      else it.sources.headD "unknown",
    sources := it.sources }

/-- `HybridSearch._rrf_fusion`. -/
def rrfFusion (vec graph : List RawItem) (k : ℕ) : List FusedItem :=
  ((List.insertionSort (fusedOrder (fusionScores vec graph k))
      (List.enumFrom 0 (rawFusionItems vec graph k))).map Prod.snd).map
    (mkFused (fusionScores vec graph k))

/-- The hybrid branch of `HybridSearch.search`: fuse, then truncate to
`top_k`. -/
def hybridCombine (vec graph : List RawItem) (k top_k : ℕ) : List FusedItem :=
  (rrfFusion vec graph k).take top_k

/-- The rank of an id in a result list (index of its first occurrence). -/
def rankOfFrom (n : ℕ) (side : List RawItem) (i : String) : Option ℕ :=
  ((List.enumFrom n side).find? (fun p => p.2.id == i)).map (fun p => p.1)

/-- The RRF contribution of an optional rank. -/
def optTerm (k : ℕ) : Option ℕ → ℚ
  | some r => rrfTerm k r
  | none => 0

/-- The fused score the spec ascribes to an id: the sum, over the lists in
which it appears, of `1/(k + rank + 1)`. -/
def rrfScoreOf (k : ℕ) (vec graph : List RawItem) (i : String) : ℚ :=
  optTerm k (rankOfFrom 0 vec i) + optTerm k (rankOfFrom 0 graph i)

/-- The sum of RRF increments an id receives while one list is processed. -/
def sideContribution (k n : ℕ) (side : List RawItem) (i : String) : ℚ :=
  ((((List.enumFrom n side)).filter (fun p => p.2.id == i)).map
    (fun p => rrfTerm k p.1)).sum

theorem scores_foldl (src : String) (k n : ℕ) (side : List RawItem)
    (acc : (String → ℚ) × List FItem) (i : String) :
    ((List.enumFrom n side).foldl (rrfStep src k) acc).1 i =
      acc.1 i + sideContribution k n side i := by
  induction side generalizing n acc with
  | nil => simp [sideContribution]
  | cons x xs ih =>
    simp only [List.enumFrom, List.foldl_cons]
    rw [ih]
    by_cases hx : x.id = i
    · simp [sideContribution, rrfStep, hx, add_assoc]
    · have hx2 : (x.id == i) = false := beq_eq_false_iff_ne.mpr hx
      have hx3 : i ≠ x.id := fun hc => hx hc.symm
      simp [sideContribution, rrfStep, hx2, hx3]

theorem sideContribution_zero (k n : ℕ) (side : List RawItem) (i : String)
    (h : ∀ x ∈ side, x.id ≠ i) : sideContribution k n side i = 0 := by
  induction side generalizing n with
  | nil => simp [sideContribution]
  | cons x xs ih =>
    have hx : (x.id == i) = false :=
      beq_eq_false_iff_ne.mpr (h x (List.mem_cons_self _ _))
    simp only [sideContribution, List.enumFrom, List.filter_cons, hx]
    exact ih (n + 1) (fun y hy => h y (List.mem_cons_of_mem _ hy))

theorem rankOfFrom_none (n : ℕ) (side : List RawItem) (i : String)
    (h : ∀ x ∈ side, x.id ≠ i) : rankOfFrom n side i = none := by
  induction side generalizing n with
  | nil => rfl
  | cons x xs ih =>
    have hx : (x.id == i) = false :=
      beq_eq_false_iff_ne.mpr (h x (List.mem_cons_self _ _))
    simp only [rankOfFrom, List.enumFrom, List.find?_cons, hx]
    exact ih (n + 1) (fun y hy => h y (List.mem_cons_of_mem _ hy))

theorem sideContribution_eq_optTerm (k n : ℕ) (side : List RawItem) (i : String)
    (hnodup : (side.map (fun x => x.id)).Nodup) :
    sideContribution k n side i = optTerm k (rankOfFrom n side i) := by
  induction side generalizing n with
  | nil => simp [sideContribution, rankOfFrom, optTerm]
  | cons x xs ih =>
    rw [List.map_cons, List.nodup_cons] at hnodup
    by_cases hx : x.id = i
    · have hxb : (x.id == i) = true := beq_iff_eq.mpr hx
      have hrest : ∀ y ∈ xs, y.id ≠ i := by
        intro y hy hc
        exact hnodup.1 (hx ▸ hc ▸ List.mem_map_of_mem (fun z => z.id) hy)
      have hr : rankOfFrom n (x :: xs) i = some n := by
        simp only [rankOfFrom, List.enumFrom]
        rw [List.find?_cons_of_pos _ (by simpa using hxb)]
        rfl
      have hc : sideContribution k n (x :: xs) i = rrfTerm k n := by
        simp only [sideContribution, List.enumFrom]
        rw [List.filter_cons_of_pos (by simpa using hxb)]
        simp only [List.map_cons, List.sum_cons]
        have h0 := sideContribution_zero k (n + 1) xs i hrest
        simp only [sideContribution] at h0
        rw [h0, add_zero]
      rw [hr, hc]
      rfl
    · have hxb : (x.id == i) = false := beq_eq_false_iff_ne.mpr hx
      have hr : rankOfFrom n (x :: xs) i = rankOfFrom (n + 1) xs i := by
        simp only [rankOfFrom, List.enumFrom]
        rw [List.find?_cons_of_neg _ (by simpa using hxb)]
      have hc : sideContribution k n (x :: xs) i =
          sideContribution k (n + 1) xs i := by
        simp only [sideContribution, List.enumFrom]
        rw [List.filter_cons_of_neg (by simpa using hxb)]
      rw [hr, hc]
      exact ih (n + 1) hnodup.2

/-- The item-dict entry created when an id is first seen from a list. -/
def newFItem (src : String) (x : RawItem) : FItem :=
  { id := x.id, name := x.name, origScore := x.score, sources := [src] }

theorem updItem_id (src x : String) (it : FItem) :
    (if it.id == x then { it with sources := it.sources ++ [src] } else it).id =
      it.id := by
  by_cases h : (it.id == x) = true <;> simp [h]

theorem any_map_id (f : RawItem → FItem) (hf : ∀ v, (f v).id = v.id)
    (l : List RawItem) (s : String) :
    (l.map f).any (fun it => it.id == s) = l.any (fun v => v.id == s) := by
  induction l with
  | nil => rfl
  | cons x xs ih => simp [List.any_cons, ih, hf]

theorem items_foldl (src : String) (k n : ℕ) (side : List RawItem)
    (acc : (String → ℚ) × List FItem)
    (hnodup : (side.map (fun x => x.id)).Nodup) :
    ((List.enumFrom n side).foldl (rrfStep src k) acc).2 =
      acc.2.map (fun it =>
        if side.any (fun x => x.id == it.id) then
          { it with sources := it.sources ++ [src] } else it) ++
      (side.filter (fun x => !acc.2.any (fun it => it.id == x.id))).map
        (newFItem src) := by
  induction side generalizing n acc with
  | nil => simp
  | cons x xs ih =>
    rw [List.map_cons, List.nodup_cons] at hnodup
    have hxnotxs : ∀ y ∈ xs, y.id ≠ x.id := by
      intro y hy hc
      exact hnodup.1 (hc ▸ List.mem_map_of_mem (fun z => z.id) hy)
    simp only [List.enumFrom, List.foldl_cons]
    by_cases hmem : acc.2.any (fun it => it.id == x.id) = true
    · have hstep : (rrfStep src k acc (n, x)).2 =
          acc.2.map (fun it =>
            if it.id == x.id then { it with sources := it.sources ++ [src] }
            else it) := by
        simp [rrfStep, hmem]
      rw [ih _ _ hnodup.2, hstep]
      congr 1
      · rw [List.map_map]
        apply List.map_congr_left
        intro it _
        by_cases hid : it.id = x.id
        · have h1 : (it.id == x.id) = true := beq_iff_eq.mpr hid
          have h2 : xs.any (fun y => y.id == it.id) = false := by
            rw [List.any_eq_false]
            intro y hy
            simpa using hid ▸ hxnotxs y hy
          have h3 : (x.id == it.id) = true := beq_iff_eq.mpr hid.symm
          simp [Function.comp, h1, h2, h3, List.any_cons]
        · have h1 : (it.id == x.id) = false := beq_eq_false_iff_ne.mpr hid
          have h2 : (x.id == it.id) = false :=
            beq_eq_false_iff_ne.mpr (fun hc => hid hc.symm)
          simp [Function.comp, h1, h2, List.any_cons]
      · rw [List.filter_cons_of_neg (by simp [hmem])]
        congr 1
        apply List.filter_congr
        intro y _
        congr 1
        rw [List.any_map]
        simp only [Function.comp_def, updItem_id]
    · have hmem2 : acc.2.any (fun it => it.id == x.id) = false :=
        Bool.eq_false_iff.mpr hmem
      have hstep : (rrfStep src k acc (n, x)).2 = acc.2 ++ [newFItem src x] := by
        simp [rrfStep, hmem2, newFItem]
      rw [ih _ _ hnodup.2, hstep]
      have hnoacc : ∀ it ∈ acc.2, it.id ≠ x.id := by
        intro it hit
        have := List.any_eq_false.mp hmem2 it hit
        simpa using this
      rw [List.map_append]
      have hnew : (([newFItem src x]).map (fun it =>
          if xs.any (fun y => y.id == it.id) then
            { it with sources := it.sources ++ [src] } else it)) =
          [newFItem src x] := by
        have hany : xs.any (fun y => y.id == (newFItem src x).id) = false := by
          rw [List.any_eq_false]
          intro y hy
          simpa [newFItem] using hxnotxs y hy
        simp only [List.map_singleton]
        rw [hany]
        simp
      rw [hnew]
      have hmapeq : acc.2.map (fun it =>
          if xs.any (fun y => y.id == it.id) then
            { it with sources := it.sources ++ [src] } else it) =
          acc.2.map (fun it =>
          if (x :: xs).any (fun y => y.id == it.id) then
            { it with sources := it.sources ++ [src] } else it) := by
        apply List.map_congr_left
        intro it hit
        have h1 : (x.id == it.id) = false :=
          beq_eq_false_iff_ne.mpr (fun hc => hnoacc it hit hc.symm)
        simp only [List.any_cons, h1, Bool.false_or]
      rw [hmapeq]
      have hfilt : xs.filter (fun y => !(acc.2 ++ [newFItem src x]).any
          (fun it => it.id == y.id)) =
          xs.filter (fun y => !acc.2.any (fun it => it.id == y.id)) := by
        apply List.filter_congr
        intro y hy
        have h1 : ((newFItem src x).id == y.id) = false := by
          simpa [newFItem] using (fun hc => hxnotxs y hy hc.symm)
        simp [List.any_append, h1]
      rw [hfilt]
      rw [List.filter_cons_of_pos (by simp [hmem2])]
      simp [List.append_assoc, newFItem]

/-- The fused item produced for a vector hit: sources `["vector"]`, plus
`"graph"` when the id also occurs in the graph list. -/
def vecFItem (graph : List RawItem) (v : RawItem) : FItem :=
  { id := v.id, name := v.name, origScore := v.score,
    sources := if graph.any (fun g => g.id == v.id) then ["vector", "graph"]
      else ["vector"] }

/-- Closed form of the item dict: vector hits in rank order, then
graph-only hits in rank order. -/
def fusionItems (vec graph : List RawItem) : List FItem :=
  vec.map (vecFItem graph) ++
    (graph.filter (fun g => !vec.any (fun v => v.id == g.id))).map
      (newFItem "graph")

theorem fusionScores_eq (vec graph : List RawItem) (k : ℕ)
    (hvec : (vec.map (fun x => x.id)).Nodup)
    (hgraph : (graph.map (fun x => x.id)).Nodup) (i : String) :
    fusionScores vec graph k i = rrfScoreOf k vec graph i := by
  unfold fusionScores fusionAcc rrfScoreOf
  rw [scores_foldl, scores_foldl,
    sideContribution_eq_optTerm _ _ _ _ hvec,
    sideContribution_eq_optTerm _ _ _ _ hgraph]
  ring

theorem rawFusionItems_eq (vec graph : List RawItem) (k : ℕ)
    (hvec : (vec.map (fun x => x.id)).Nodup)
    (hgraph : (graph.map (fun x => x.id)).Nodup) :
    rawFusionItems vec graph k = fusionItems vec graph := by
  unfold rawFusionItems fusionAcc fusionItems
  rw [items_foldl _ _ _ _ _ hgraph, items_foldl _ _ _ _ _ hvec]
  have hbase : (List.map (fun it =>
      if vec.any (fun x => x.id == it.id) then
        { it with sources := it.sources ++ ["vector"] } else it)
      ([] : List FItem)) ++
      (vec.filter (fun x => !([] : List FItem).any
        (fun it => it.id == x.id))).map (newFItem "vector") =
      vec.map (newFItem "vector") := by
    simp
  rw [hbase]
  congr 1
  · rw [List.map_map]
    apply List.map_congr_left
    intro v _
    simp only [Function.comp_def, newFItem]
    by_cases hv : (graph.any fun g => g.id == v.id) = true
    · rw [hv]
      simp [vecFItem, hv]
    · have hv2 : (graph.any fun g => g.id == v.id) = false :=
        Bool.eq_false_iff.mpr hv
      rw [hv2]
      simp [vecFItem, hv2]
  · congr 1
    apply List.filter_congr
    intro g _
    rw [any_map_id (newFItem "vector") (fun v => rfl) vec g.id]

theorem fusionItems_ids (vec graph : List RawItem) :
    (fusionItems vec graph).map (fun it => it.id) =
      vec.map (fun x => x.id) ++
        ((graph.filter (fun g => !vec.any (fun v => v.id == g.id))).map
          (fun x => x.id)) := by
  simp [fusionItems, List.map_map, Function.comp_def, vecFItem, newFItem]

theorem fusionItems_ids_nodup (vec graph : List RawItem)
    (hvec : (vec.map (fun x => x.id)).Nodup)
    (hgraph : (graph.map (fun x => x.id)).Nodup) :
    ((fusionItems vec graph).map (fun it => it.id)).Nodup := by
  rw [fusionItems_ids]
  rw [List.nodup_append]
  refine ⟨hvec, ?_, ?_⟩
  · exact List.Nodup.sublist
      (List.Sublist.map _ (List.filter_sublist graph)) hgraph
  · intro a ha hb
    obtain ⟨g, hg, rfl⟩ := List.mem_map.mp hb
    have hg2 := List.mem_filter.mp hg
    have : vec.any (fun v => v.id == g.id) = false := by
      simpa using hg2.2
    obtain ⟨v, hv, hvid⟩ := List.mem_map.mp ha
    have h5 := List.any_eq_false.mp this v hv
    simp only [beq_iff_eq] at h5
    exact h5 hvid

theorem rankOfFrom_get (side : List RawItem)
    (hnodup : (side.map (fun x => x.id)).Nodup) (n idx : ℕ)
    (h : idx < side.length) :
    rankOfFrom n side ((side.get ⟨idx, h⟩).id) = some (n + idx) := by
  induction side generalizing n idx with
  | nil => simp at h
  | cons x xs ih =>
    rw [List.map_cons, List.nodup_cons] at hnodup
    cases idx with
    | zero =>
      simp only [List.get, rankOfFrom, List.enumFrom]
      rw [List.find?_cons_of_pos _ (by simp)]
      rfl
    | succ m =>
      have hm : m < xs.length := Nat.lt_of_succ_lt_succ h
      have hxne : (x.id == (xs.get ⟨m, hm⟩).id) = false := by
        rw [beq_eq_false_iff_ne]
        intro hc
        exact hnodup.1 (hc ▸ List.mem_map_of_mem (fun z => z.id)
          (List.get_mem xs m hm))
      show rankOfFrom n (x :: xs) ((xs.get ⟨m, hm⟩).id) = some (n + (m + 1))
      simp only [rankOfFrom, List.enumFrom]
      rw [List.find?_cons_of_neg _ (by simpa using hxne)]
      have := ih hnodup.2 (n + 1) m hm
      simp only [rankOfFrom] at this
      rw [this]
      congr 1
      omega

theorem rankOfFrom_some_get (side : List RawItem) (n r : ℕ) (i : String)
    (h : rankOfFrom n side i = some r) :
    n ≤ r ∧ ∃ hlt : r - n < side.length, (side.get ⟨r - n, hlt⟩).id = i := by
  induction side generalizing n with
  | nil => simp [rankOfFrom] at h
  | cons x xs ih =>
    by_cases hx : (x.id == i) = true
    · simp only [rankOfFrom, List.enumFrom] at h
      rw [List.find?_cons_of_pos _ (by simpa using hx)] at h
      have h2 : some n = some r := h
      injection h2 with h2
      subst h2
      exact ⟨le_refl _, by simpa using beq_iff_eq.mp hx⟩
    · simp only [rankOfFrom, List.enumFrom] at h
      rw [List.find?_cons_of_neg _ (by simpa using hx)] at h
      obtain ⟨h1, hlt, h2⟩ := ih (n + 1) h
      refine ⟨le_trans (Nat.le_succ n) h1, ?_⟩
      have hr : r - n = (r - (n + 1)) + 1 := by omega
      have hlt2 : r - n < (x :: xs).length := by
        simp only [List.length_cons]
        omega
      refine ⟨hlt2, ?_⟩
      have hgg : (x :: xs).get ⟨r - n, hlt2⟩ = xs.get ⟨r - (n + 1), hlt⟩ := by
        rw [show (⟨r - n, hlt2⟩ : Fin (x :: xs).length) =
            ⟨(r - (n + 1)) + 1, by simp only [List.length_cons]; omega⟩ from by
          apply Fin.ext
          simpa using hr]
        rfl
      rw [hgg, h2]

theorem rankOfFrom_isSome (side : List RawItem) (n : ℕ) (i : String)
    (h : ∃ x ∈ side, x.id = i) : (rankOfFrom n side i).isSome = true := by
  induction side generalizing n with
  | nil => simp at h
  | cons x xs ih =>
    by_cases hx : (x.id == i) = true
    · simp only [rankOfFrom, List.enumFrom]
      rw [List.find?_cons_of_pos _ (by simpa using hx)]
      rfl
    · simp only [rankOfFrom, List.enumFrom]
      rw [List.find?_cons_of_neg _ (by simpa using hx)]
      obtain ⟨y, hy, hyi⟩ := h
      rcases List.mem_cons.mp hy with rfl | hy2
      · exact absurd (beq_iff_eq.mpr hyi) (by simpa using hx)
      · exact ih (n + 1) ⟨y, hy2, hyi⟩

theorem rrfTerm_pos (k r : ℕ) : 0 < rrfTerm k r := by
  unfold rrfTerm
  positivity

theorem rrfTerm_antitone (k r r2 : ℕ) (h : r ≤ r2) :
    rrfTerm k r2 ≤ rrfTerm k r := by
  unfold rrfTerm
  apply one_div_le_one_div_of_le
  · positivity
  · have : (r : ℚ) ≤ (r2 : ℚ) := by exact_mod_cast h
    linarith

theorem rrfTerm_inj (k r r2 : ℕ) (h : rrfTerm k r = rrfTerm k r2) : r = r2 := by
  unfold rrfTerm at h
  have h1 : ((k : ℚ) + r + 1) ≠ 0 := by positivity
  have h2 : ((k : ℚ) + r2 + 1) ≠ 0 := by positivity
  rw [div_eq_div_iff h1 h2, one_mul, one_mul] at h
  have : (r : ℚ) = r2 := by linarith
  exact_mod_cast this

/-- The stably sorted, enumerated item dict of `_rrf_fusion`. -/
def sortedPairs (vec graph : List RawItem) (k : ℕ) : List (ℕ × FItem) :=
  List.insertionSort (fusedOrder (fusionScores vec graph k))
    (List.enumFrom 0 (rawFusionItems vec graph k))

theorem rrfFusion_def (vec graph : List RawItem) (k : ℕ) :
    rrfFusion vec graph k =
      ((sortedPairs vec graph k).map Prod.snd).map
        (mkFused (fusionScores vec graph k)) := rfl

theorem sortedPairs_perm (vec graph : List RawItem) (k : ℕ) :
    List.Perm (sortedPairs vec graph k)
      (List.enumFrom 0 (rawFusionItems vec graph k)) :=
  List.perm_insertionSort _ _

theorem sortedPairs_sorted (vec graph : List RawItem) (k : ℕ) :
    List.Pairwise (fusedOrder (fusionScores vec graph k))
      (sortedPairs vec graph k) :=
  List.sorted_insertionSort _ _

theorem sortedPairs_fst_nodup (vec graph : List RawItem) (k : ℕ) :
    ((sortedPairs vec graph k).map Prod.fst).Nodup := by
  have hperm : List.Perm ((sortedPairs vec graph k).map Prod.fst)
      ((List.enumFrom 0 (rawFusionItems vec graph k)).map Prod.fst) :=
    (sortedPairs_perm vec graph k).map Prod.fst
  rw [hperm.nodup_iff, List.enumFrom_map_fst]
  exact List.nodup_range' _ _

theorem mem_enumFrom_get (l : List FItem) (n : ℕ) (p : ℕ × FItem)
    (hp : p ∈ List.enumFrom n l) :
    n ≤ p.1 ∧ ∃ hlt : p.1 - n < l.length, l.get ⟨p.1 - n, hlt⟩ = p.2 := by
  induction l generalizing n with
  | nil => simp at hp
  | cons x xs ih =>
    simp only [List.enumFrom] at hp
    rcases List.mem_cons.mp hp with rfl | hp2
    · exact ⟨le_refl _, by simp⟩
    · obtain ⟨h1, hlt, h2⟩ := ih (n + 1) hp2
      refine ⟨le_trans (Nat.le_succ n) h1, ?_⟩
      have hr : p.1 - n = (p.1 - (n + 1)) + 1 := by omega
      have hlt2 : p.1 - n < (x :: xs).length := by
        simp only [List.length_cons]
        omega
      refine ⟨hlt2, ?_⟩
      have hgg : (x :: xs).get ⟨p.1 - n, hlt2⟩ = xs.get ⟨p.1 - (n + 1), hlt⟩ := by
        rw [show (⟨p.1 - n, hlt2⟩ : Fin (x :: xs).length) =
            ⟨(p.1 - (n + 1)) + 1, by simp only [List.length_cons]; omega⟩ from by
          apply Fin.ext
          simpa using hr]
        rfl
      rw [hgg, h2]

theorem mem_rrfFusion_struct (vec graph : List RawItem) (k : ℕ)
    (fi : FusedItem) (hfi : fi ∈ rrfFusion vec graph k) :
    ∃ it ∈ rawFusionItems vec graph k,
      fi = mkFused (fusionScores vec graph k) it := by
  rw [rrfFusion_def] at hfi
  obtain ⟨it, hit, rfl⟩ := List.mem_map.mp hfi
  obtain ⟨p, hp, rfl⟩ := List.mem_map.mp hit
  have hp2 : p ∈ List.enumFrom 0 (rawFusionItems vec graph k) :=
    (sortedPairs_perm vec graph k).mem_iff.mp hp
  have : p.2 ∈ rawFusionItems vec graph k := by
    rw [show rawFusionItems vec graph k =
        (List.enumFrom 0 (rawFusionItems vec graph k)).map Prod.snd from
      (List.enumFrom_map_snd 0 _).symm]
    exact List.mem_map_of_mem Prod.snd hp2
  exact ⟨p.2, this, rfl⟩

/-- C4: in hybrid mode the fused score of each returned item is the sum,
over the lists in which its id appears, of `1/(K + rank + 1)` (`K` defaults
to 60); items appearing in both lists carry `source = "hybrid"`; the result
is the fusion sorted by score descending, truncated to `top_k`; and
increasing an item's rank in either list never increases its fused
score. -/
theorem C4_rrf_fusion (vec graph : List RawItem) (k top_k : ℕ)
    (hvec : (vec.map (fun x => x.id)).Nodup)
    (hgraph : (graph.map (fun x => x.id)).Nodup) :
    rrfK = 60 ∧
    (∀ fi ∈ hybridCombine vec graph k top_k,
        fi.score = optTerm k (rankOfFrom 0 vec fi.id) +
          optTerm k (rankOfFrom 0 graph fi.id)) ∧
    (∀ fi ∈ hybridCombine vec graph k top_k,
        (∃ v ∈ vec, v.id = fi.id) → (∃ g ∈ graph, g.id = fi.id) →
        fi.source = "hybrid") ∧
    hybridCombine vec graph k top_k = (rrfFusion vec graph k).take top_k ∧
    List.Pairwise (fun a b : FusedItem => b.score ≤ a.score)
      (rrfFusion vec graph k) ∧
    (∀ r r2 : ℕ, ∀ ro : Option ℕ, r ≤ r2 →
        optTerm k (some r2) + optTerm k ro ≤ optTerm k (some r) + optTerm k ro) ∧
    (∀ r r2 : ℕ, ∀ ro : Option ℕ, r ≤ r2 →
        optTerm k ro + optTerm k (some r2) ≤ optTerm k ro + optTerm k (some r)) := by
  refine ⟨rfl, ?_, ?_, rfl, ?_, ?_, ?_⟩
  · intro fi hfi
    have hfi2 : fi ∈ rrfFusion vec graph k :=
      List.take_subset _ _ hfi
    obtain ⟨it, hit, rfl⟩ := mem_rrfFusion_struct vec graph k fi hfi2
    show fusionScores vec graph k it.id = _
    rw [fusionScores_eq vec graph k hvec hgraph]
    rfl
  · intro fi hfi hv hg
    have hfi2 : fi ∈ rrfFusion vec graph k :=
      List.take_subset _ _ hfi
    obtain ⟨it, hit, rfl⟩ := mem_rrfFusion_struct vec graph k fi hfi2
    rw [rawFusionItems_eq vec graph k hvec hgraph] at hit
    unfold fusionItems at hit
    rcases List.mem_append.mp hit with hit1 | hit2
    · obtain ⟨v, hvmem, rfl⟩ := List.mem_map.mp hit1
      have hgany : graph.any (fun g => g.id == v.id) = true := by
        rw [List.any_eq_true]
        obtain ⟨g, hgm, hgid⟩ := hg
        exact ⟨g, hgm, beq_iff_eq.mpr hgid⟩
      show (if 1 < (vecFItem graph v).sources.length then "hybrid"
        else (vecFItem graph v).sources.headD "unknown") = "hybrid"
      simp [vecFItem, hgany]
    · obtain ⟨g, hgmem, rfl⟩ := List.mem_map.mp hit2
      have hg2 := List.mem_filter.mp hgmem
      have hnone : vec.any (fun v => v.id == g.id) = false := by
        simpa using hg2.2
      obtain ⟨v, hvm, hvid⟩ := hv
      have := List.any_eq_false.mp hnone v hvm
      simp only [beq_iff_eq] at this
      exact absurd hvid this
  · rw [rrfFusion_def]
    rw [List.pairwise_map, List.pairwise_map]
    apply List.Pairwise.imp _ (sortedPairs_sorted vec graph k)
    intro a b hab
    rcases hab with h | ⟨h, _⟩
    · exact le_of_lt h
    · exact le_of_eq h.symm
  · intro r r2 ro h
    apply add_le_add_right
    exact rrfTerm_antitone k r r2 h
  · intro r r2 ro h
    apply add_le_add_left
    exact rrfTerm_antitone k r r2 h

/-- C4, witness: the descending-score ordering of the fusion at a concrete
one-item vector list and one-item graph list. -/
theorem C4_rrf_fusion_witness :
    List.Pairwise (fun a b : FusedItem => b.score ≤ a.score)
      (rrfFusion [{ id := "a" }] [{ id := "b" }] 60) :=
  (C4_rrf_fusion [{ id := "a" }] [{ id := "b" }] 60 10
    (by decide) (by decide)).2.2.2.2.1

theorem mem_enum_zero_get (l : List FItem) (p : ℕ × FItem)
    (hp : p ∈ List.enumFrom 0 l) :
    ∃ hlt : p.1 < l.length, l.get ⟨p.1, hlt⟩ = p.2 := by
  obtain ⟨-, hlt, hg⟩ := mem_enumFrom_get l 0 p hp
  exact ⟨hlt, hg⟩

theorem fusionItems_length (vec graph : List RawItem) :
    (fusionItems vec graph).length =
      vec.length +
        (graph.filter (fun g => !vec.any (fun v => v.id == g.id))).length := by
  simp [fusionItems]

theorem fusionItems_get_low (vec graph : List RawItem) (n : ℕ)
    (hn : n < vec.length) (hI : n < (fusionItems vec graph).length) :
    (fusionItems vec graph).get ⟨n, hI⟩ = vecFItem graph (vec.get ⟨n, hn⟩) := by
  have h1 : (fusionItems vec graph)[n]? =
      some (vecFItem graph (vec.get ⟨n, hn⟩)) := by
    unfold fusionItems
    rw [List.getElem?_append_left (by simpa using hn), List.getElem?_map,
      List.getElem?_eq_getElem hn]
    simp
  have h2 : (fusionItems vec graph)[n]? =
      some ((fusionItems vec graph).get ⟨n, hI⟩) := by
    rw [List.getElem?_eq_getElem hI]
    simp
  rw [h1] at h2
  injection h2 with h2
  exact h2.symm

theorem fusionItems_get_high (vec graph : List RawItem) (n : ℕ)
    (hn : vec.length ≤ n) (hI : n < (fusionItems vec graph).length) :
    ∃ g ∈ graph.filter (fun g => !vec.any (fun v => v.id == g.id)),
      (fusionItems vec graph).get ⟨n, hI⟩ = newFItem "graph" g := by
  have hlen := fusionItems_length vec graph
  have hm : n - vec.length <
      (graph.filter (fun g => !vec.any (fun v => v.id == g.id))).length := by
    omega
  have h1 : (fusionItems vec graph)[n]? =
      some (newFItem "graph"
        ((graph.filter (fun g => !vec.any (fun v => v.id == g.id))).get
          ⟨n - vec.length, hm⟩)) := by
    unfold fusionItems
    rw [List.getElem?_append_right (by simpa using hn), List.getElem?_map]
    rw [show n - (vec.map (vecFItem graph)).length = n - vec.length from by
      simp]
    rw [List.getElem?_eq_getElem hm]
    simp
  have h2 : (fusionItems vec graph)[n]? =
      some ((fusionItems vec graph).get ⟨n, hI⟩) := by
    rw [List.getElem?_eq_getElem hI]
    simp
  rw [h1] at h2
  injection h2 with h2
  exact ⟨_, List.get_mem _ _ _, h2.symm⟩

/-- The graph-list confidence the tie-break claim refers to: the `score`
field of the id's graph hit (graph hits carry `confidence` as their
score). -/
def graphConf (graph : List RawItem) (i : String) : ℚ :=
  ((graph.find? (fun g => g.id == i)).map (fun g => g.score)).getD 0

theorem sortedPairs_get_items (vec graph : List RawItem) (k : ℕ)
    (hvec : (vec.map (fun x => x.id)).Nodup)
    (hgraph : (graph.map (fun x => x.id)).Nodup)
    (i : ℕ) (hi : i < (sortedPairs vec graph k).length) :
    ∃ hlen : ((sortedPairs vec graph k).get ⟨i, hi⟩).1 <
        (fusionItems vec graph).length,
      (fusionItems vec graph).get
        ⟨((sortedPairs vec graph k).get ⟨i, hi⟩).1, hlen⟩ =
        ((sortedPairs vec graph k).get ⟨i, hi⟩).2 := by
  have hmem : (sortedPairs vec graph k).get ⟨i, hi⟩ ∈ sortedPairs vec graph k :=
    List.get_mem _ _ _
  have hpe := (sortedPairs_perm vec graph k).mem_iff.mp hmem
  obtain ⟨hplen, hpget⟩ := mem_enum_zero_get _ _ hpe
  have hEQ := rawFusionItems_eq vec graph k hvec hgraph
  have hplen2 : ((sortedPairs vec graph k).get ⟨i, hi⟩).1 <
      (fusionItems vec graph).length := by
    rw [← hEQ]
    exact hplen
  refine ⟨hplen2, ?_⟩
  have hopt : (rawFusionItems vec graph k)[((sortedPairs vec graph k).get ⟨i, hi⟩).1]? =
      some ((sortedPairs vec graph k).get ⟨i, hi⟩).2 := by
    rw [List.getElem?_eq_getElem hplen]
    rw [show (rawFusionItems vec graph k)[((sortedPairs vec graph k).get ⟨i, hi⟩).1] =
        (rawFusionItems vec graph k).get
          ⟨((sortedPairs vec graph k).get ⟨i, hi⟩).1, hplen⟩ from rfl, hpget]
  rw [hEQ] at hopt
  have h2 : (fusionItems vec graph)[((sortedPairs vec graph k).get ⟨i, hi⟩).1]? =
      some ((fusionItems vec graph).get
        ⟨((sortedPairs vec graph k).get ⟨i, hi⟩).1, hplen2⟩) := by
    rw [List.getElem?_eq_getElem hplen2]
    rfl
  rw [hopt] at h2
  injection h2 with h2
  exact h2.symm

theorem sortedPairs_fst_lt (vec graph : List RawItem) (k : ℕ)
    (i j : ℕ) (hi : i < (sortedPairs vec graph k).length)
    (hj : j < (sortedPairs vec graph k).length) (hij : i < j)
    (heq : fusionScores vec graph k
        ((sortedPairs vec graph k).get ⟨i, hi⟩).2.id =
      fusionScores vec graph k ((sortedPairs vec graph k).get ⟨j, hj⟩).2.id) :
    ((sortedPairs vec graph k).get ⟨i, hi⟩).1 <
      ((sortedPairs vec graph k).get ⟨j, hj⟩).1 := by
  have hpair := List.pairwise_iff_get.mp (sortedPairs_sorted vec graph k)
    ⟨i, hi⟩ ⟨j, hj⟩ (by exact hij)
  have hple : ((sortedPairs vec graph k).get ⟨i, hi⟩).1 ≤
      ((sortedPairs vec graph k).get ⟨j, hj⟩).1 := by
    rcases hpair with h | ⟨_, h2⟩
    · rw [heq] at h
      exact absurd h (lt_irrefl _)
    · exact h2
  have hfst : ((sortedPairs vec graph k).get ⟨i, hi⟩).1 ≠
      ((sortedPairs vec graph k).get ⟨j, hj⟩).1 := by
    intro hc
    have hnd := sortedPairs_fst_nodup vec graph k
    have hlen : ((sortedPairs vec graph k).map Prod.fst).length =
        (sortedPairs vec graph k).length := List.length_map _ _
    have h1 : ((sortedPairs vec graph k).map Prod.fst).get ⟨i, hlen ▸ hi⟩ =
        ((sortedPairs vec graph k).map Prod.fst).get ⟨j, hlen ▸ hj⟩ := by
      rw [List.get_map, List.get_map]
      exact hc
    have h2 := hnd.get_inj_iff.mp h1
    have h3 : i = j := by
      have := congrArg Fin.val h2
      simpa using this
    omega
  exact lt_of_le_of_ne hple hfst

theorem sortedPairs_tie (vec graph : List RawItem) (k : ℕ)
    (hvec : (vec.map (fun x => x.id)).Nodup)
    (hgraph : (graph.map (fun x => x.id)).Nodup)
    (i j : ℕ) (hi : i < (sortedPairs vec graph k).length)
    (hj : j < (sortedPairs vec graph k).length) (hij : i < j)
    (heq : fusionScores vec graph k
        ((sortedPairs vec graph k).get ⟨i, hi⟩).2.id =
      fusionScores vec graph k ((sortedPairs vec graph k).get ⟨j, hj⟩).2.id) :
    (∃ ri, rankOfFrom 0 vec ((sortedPairs vec graph k).get ⟨i, hi⟩).2.id =
        some ri ∧
      (rankOfFrom 0 vec ((sortedPairs vec graph k).get ⟨j, hj⟩).2.id = none ∨
       ∃ rj, rankOfFrom 0 vec ((sortedPairs vec graph k).get ⟨j, hj⟩).2.id =
          some rj ∧ ri < rj)) ∧
    (rankOfFrom 0 vec ((sortedPairs vec graph k).get ⟨i, hi⟩).2.id = none →
     rankOfFrom 0 vec ((sortedPairs vec graph k).get ⟨j, hj⟩).2.id = none →
     graphConf graph ((sortedPairs vec graph k).get ⟨j, hj⟩).2.id ≤
       graphConf graph ((sortedPairs vec graph k).get ⟨i, hi⟩).2.id) := by
  have hplt := sortedPairs_fst_lt vec graph k i j hi hj hij heq
  obtain ⟨hpl, hpget⟩ := sortedPairs_get_items vec graph k hvec hgraph i hi
  obtain ⟨hql, hqget⟩ := sortedPairs_get_items vec graph k hvec hgraph j hj
  by_cases hq1 : ((sortedPairs vec graph k).get ⟨j, hj⟩).1 < vec.length
  · -- both indices fall in the vector part of the item dict
    have hp1 : ((sortedPairs vec graph k).get ⟨i, hi⟩).1 < vec.length :=
      lt_trans hplt hq1
    have hpv := fusionItems_get_low vec graph _ hp1 hpl
    have hqv := fusionItems_get_low vec graph _ hq1 hql
    rw [hpget] at hpv
    rw [hqget] at hqv
    have hpid : ((sortedPairs vec graph k).get ⟨i, hi⟩).2.id =
        (vec.get ⟨_, hp1⟩).id := by rw [hpv]; rfl
    have hqid : ((sortedPairs vec graph k).get ⟨j, hj⟩).2.id =
        (vec.get ⟨_, hq1⟩).id := by rw [hqv]; rfl
    have hrp : rankOfFrom 0 vec ((sortedPairs vec graph k).get ⟨i, hi⟩).2.id =
        some ((sortedPairs vec graph k).get ⟨i, hi⟩).1 := by
      rw [hpid]
      simpa using rankOfFrom_get vec hvec 0 _ hp1
    have hrq : rankOfFrom 0 vec ((sortedPairs vec graph k).get ⟨j, hj⟩).2.id =
        some ((sortedPairs vec graph k).get ⟨j, hj⟩).1 := by
      rw [hqid]
      simpa using rankOfFrom_get vec hvec 0 _ hq1
    refine ⟨⟨_, hrp, Or.inr ⟨_, hrq, hplt⟩⟩, ?_⟩
    intro hnone _
    rw [hrp] at hnone
    exact absurd hnone (by simp)
  · have hq2 : vec.length ≤ ((sortedPairs vec graph k).get ⟨j, hj⟩).1 :=
      Nat.le_of_not_lt hq1
    obtain ⟨g2, hg2f, hqv⟩ := fusionItems_get_high vec graph _ hq2 hql
    rw [hqget] at hqv
    have hg2m := List.mem_filter.mp hg2f
    have hg2nv : ∀ v ∈ vec, v.id ≠ g2.id := by
      simpa using hg2m.2
    have hqid : ((sortedPairs vec graph k).get ⟨j, hj⟩).2.id = g2.id := by
      rw [hqv]; rfl
    have hrq : rankOfFrom 0 vec
        ((sortedPairs vec graph k).get ⟨j, hj⟩).2.id = none := by
      rw [hqid]
      exact rankOfFrom_none 0 vec g2.id hg2nv
    by_cases hp1 : ((sortedPairs vec graph k).get ⟨i, hi⟩).1 < vec.length
    · -- i in the vector part, j graph-only
      have hpv := fusionItems_get_low vec graph _ hp1 hpl
      rw [hpget] at hpv
      have hpid : ((sortedPairs vec graph k).get ⟨i, hi⟩).2.id =
          (vec.get ⟨_, hp1⟩).id := by rw [hpv]; rfl
      have hrp : rankOfFrom 0 vec
          ((sortedPairs vec graph k).get ⟨i, hi⟩).2.id =
          some ((sortedPairs vec graph k).get ⟨i, hi⟩).1 := by
        rw [hpid]
        simpa using rankOfFrom_get vec hvec 0 _ hp1
      refine ⟨⟨_, hrp, Or.inl hrq⟩, ?_⟩
      intro hnone _
      rw [hrp] at hnone
      exact absurd hnone (by simp)
    · -- both graph-only: impossible, their fused scores differ
      exfalso
      have hp2 : vec.length ≤ ((sortedPairs vec graph k).get ⟨i, hi⟩).1 :=
        Nat.le_of_not_lt hp1
      obtain ⟨g1, hg1f, hpv⟩ := fusionItems_get_high vec graph _ hp2 hpl
      rw [hpget] at hpv
      have hg1m := List.mem_filter.mp hg1f
      have hg1nv : ∀ v ∈ vec, v.id ≠ g1.id := by
        simpa using hg1m.2
      have hpid : ((sortedPairs vec graph k).get ⟨i, hi⟩).2.id = g1.id := by
        rw [hpv]; rfl
      have hrp : rankOfFrom 0 vec
          ((sortedPairs vec graph k).get ⟨i, hi⟩).2.id = none := by
        rw [hpid]
        exact rankOfFrom_none 0 vec g1.id hg1nv
      -- both ids have a graph rank
      have hr1s := rankOfFrom_isSome graph 0 g1.id ⟨g1, hg1m.1, rfl⟩
      have hr2s := rankOfFrom_isSome graph 0 g2.id ⟨g2, hg2m.1, rfl⟩
      obtain ⟨r1, hr1⟩ := Option.isSome_iff_exists.mp hr1s
      obtain ⟨r2, hr2⟩ := Option.isSome_iff_exists.mp hr2s
      have hs1 : fusionScores vec graph k
          ((sortedPairs vec graph k).get ⟨i, hi⟩).2.id = rrfTerm k r1 := by
        rw [fusionScores_eq vec graph k hvec hgraph, rrfScoreOf, hrp, hpid, hr1]
        simp [optTerm]
      have hs2 : fusionScores vec graph k
          ((sortedPairs vec graph k).get ⟨j, hj⟩).2.id = rrfTerm k r2 := by
        rw [fusionScores_eq vec graph k hvec hgraph, rrfScoreOf, hrq, hqid, hr2]
        simp [optTerm]
      have hreq : r1 = r2 := by
        apply rrfTerm_inj k
        rw [← hs1, ← hs2, heq]
      -- equal graph ranks force equal ids
      obtain ⟨-, hlt1, hid1⟩ := rankOfFrom_some_get graph 0 r1 g1.id hr1
      obtain ⟨-, hlt2, hid2⟩ := rankOfFrom_some_get graph 0 r2 g2.id hr2
      have hsameid : g1.id = g2.id := by
        rw [← hid1, ← hid2]
        subst hreq
        rfl
      -- but the item dict has no duplicate ids
      have hnd := fusionItems_ids_nodup vec graph hvec hgraph
      have hlenm : ((fusionItems vec graph).map (fun it => it.id)).length =
          (fusionItems vec graph).length := List.length_map _ _
      have hieq : (((fusionItems vec graph).map (fun it => it.id)).get
            ⟨_, hlenm ▸ hpl⟩ :) =
          ((fusionItems vec graph).map (fun it => it.id)).get
            ⟨_, hlenm ▸ hql⟩ := by
        rw [List.get_map, List.get_map, hpget, hqget]
        rw [show ((sortedPairs vec graph k).get ⟨i, hi⟩).2.id = g1.id from hpid,
          show ((sortedPairs vec graph k).get ⟨j, hj⟩).2.id = g2.id from hqid]
        exact hsameid
      have h2 := hnd.get_inj_iff.mp hieq
      have h3 := congrArg Fin.val h2
      simp only at h3
      omega

theorem rrfFusion_length_eq (vec graph : List RawItem) (k : ℕ) :
    (rrfFusion vec graph k).length = (sortedPairs vec graph k).length := by
  rw [rrfFusion_def]
  simp

theorem rrfFusion_get_eq (vec graph : List RawItem) (k : ℕ) (i : ℕ)
    (hi : i < (rrfFusion vec graph k).length)
    (hi2 : i < (sortedPairs vec graph k).length) :
    (rrfFusion vec graph k).get ⟨i, hi⟩ =
      mkFused (fusionScores vec graph k)
        ((sortedPairs vec graph k).get ⟨i, hi2⟩).2 := by
  have h1 : (rrfFusion vec graph k)[i]? =
      some (mkFused (fusionScores vec graph k)
        ((sortedPairs vec graph k).get ⟨i, hi2⟩).2) := by
    rw [rrfFusion_def, List.getElem?_map, List.getElem?_map,
      List.getElem?_eq_getElem hi2]
    rfl
  have h2 : (rrfFusion vec graph k)[i]? =
      some ((rrfFusion vec graph k).get ⟨i, hi⟩) := by
    rw [List.getElem?_eq_getElem hi]
    rfl
  rw [h1] at h2
  injection h2 with h2
  exact h2.symm

/-- C5: in hybrid fusion, whenever two returned items have equal fused
scores, the item ranked higher (earlier) in the vector list is ordered
first — an item with a vector rank precedes one with none, and of two
vector-ranked items the better-ranked precedes — and among items with no
vector rank, equal fused scores force the later item's graph confidence
not to exceed the earlier one's. -/
theorem C5_rrf_tiebreak (vec graph : List RawItem) (k : ℕ)
    (hvec : (vec.map (fun x => x.id)).Nodup)
    (hgraph : (graph.map (fun x => x.id)).Nodup)
    (i j : ℕ) (hi : i < (rrfFusion vec graph k).length)
    (hj : j < (rrfFusion vec graph k).length) (hij : i < j)
    (hscore : ((rrfFusion vec graph k).get ⟨i, hi⟩).score =
      ((rrfFusion vec graph k).get ⟨j, hj⟩).score) :
    (∃ ri, rankOfFrom 0 vec ((rrfFusion vec graph k).get ⟨i, hi⟩).id =
        some ri ∧
      (rankOfFrom 0 vec ((rrfFusion vec graph k).get ⟨j, hj⟩).id = none ∨
       ∃ rj, rankOfFrom 0 vec ((rrfFusion vec graph k).get ⟨j, hj⟩).id =
          some rj ∧ ri < rj)) ∧
    (rankOfFrom 0 vec ((rrfFusion vec graph k).get ⟨i, hi⟩).id = none →
     rankOfFrom 0 vec ((rrfFusion vec graph k).get ⟨j, hj⟩).id = none →
     graphConf graph ((rrfFusion vec graph k).get ⟨j, hj⟩).id ≤
       graphConf graph ((rrfFusion vec graph k).get ⟨i, hi⟩).id) := by
  have hi2 : i < (sortedPairs vec graph k).length :=
    rrfFusion_length_eq vec graph k ▸ hi
  have hj2 : j < (sortedPairs vec graph k).length :=
    rrfFusion_length_eq vec graph k ▸ hj
  rw [rrfFusion_get_eq vec graph k i hi hi2,
    rrfFusion_get_eq vec graph k j hj hj2] at hscore ⊢
  have heq : fusionScores vec graph k
      ((sortedPairs vec graph k).get ⟨i, hi2⟩).2.id =
      fusionScores vec graph k
        ((sortedPairs vec graph k).get ⟨j, hj2⟩).2.id := hscore
  exact sortedPairs_tie vec graph k hvec hgraph i j hi2 hj2 hij heq

/-- A one-hit vector list used to exhibit a concrete score tie. -/
def demoVec : List RawItem := [{ id := "a" }]

/-- A one-hit graph list used to exhibit a concrete score tie. -/
def demoGraph : List RawItem := [{ id := "b", score := 7 }]

/-- The item-dict entry of the demo vector hit. -/
def demoA : FItem :=
  { id := "a", name := "", origScore := 0, sources := ["vector"] }

/-- The item-dict entry of the demo graph hit. -/
def demoB : FItem :=
  { id := "b", name := "", origScore := 7, sources := ["graph"] }

theorem demo_S_eq : fusionScores demoVec demoGraph 60 "a" =
    fusionScores demoVec demoGraph 60 "b" := by
  rw [fusionScores_eq _ _ _ (by decide) (by decide),
    fusionScores_eq _ _ _ (by decide) (by decide)]
  unfold rrfScoreOf
  rw [show rankOfFrom 0 demoVec "a" = some 0 from by decide,
    show rankOfFrom 0 demoGraph "a" = none from by decide,
    show rankOfFrom 0 demoVec "b" = none from by decide,
    show rankOfFrom 0 demoGraph "b" = some 0 from by decide]
  show optTerm 60 (some 0) + optTerm 60 none =
    optTerm 60 none + optTerm 60 (some 0)
  simp [optTerm]

theorem demo_sortedPairs :
    sortedPairs demoVec demoGraph 60 = [(0, demoA), (1, demoB)] := by
  unfold sortedPairs
  rw [show rawFusionItems demoVec demoGraph 60 = [demoA, demoB] from by
    rw [rawFusionItems_eq _ _ _ (by decide) (by decide)]
    decide]
  show List.insertionSort _ [(0, demoA), (1, demoB)] = _
  simp only [List.insertionSort, List.orderedInsert]
  have hcond : fusedOrder (fusionScores demoVec demoGraph 60)
      (0, demoA) (1, demoB) := Or.inr ⟨demo_S_eq, by omega⟩
  rw [if_pos hcond]

theorem demo_len : (rrfFusion demoVec demoGraph 60).length = 2 := by
  rw [rrfFusion_length_eq, demo_sortedPairs]
  rfl

theorem demo_idx0 : 0 < (rrfFusion demoVec demoGraph 60).length := by
  rw [demo_len]
  omega

theorem demo_idx1 : 1 < (rrfFusion demoVec demoGraph 60).length := by
  rw [demo_len]
  omega

theorem demo_get0 : (rrfFusion demoVec demoGraph 60).get ⟨0, demo_idx0⟩ =
    mkFused (fusionScores demoVec demoGraph 60) demoA := by
  have h1 : (rrfFusion demoVec demoGraph 60)[0]? =
      some (mkFused (fusionScores demoVec demoGraph 60) demoA) := by
    rw [rrfFusion_def, List.getElem?_map, List.getElem?_map, demo_sortedPairs]
    rfl
  have h2 : (rrfFusion demoVec demoGraph 60)[0]? =
      some ((rrfFusion demoVec demoGraph 60).get ⟨0, demo_idx0⟩) := by
    rw [List.getElem?_eq_getElem demo_idx0]
    rfl
  rw [h1] at h2
  injection h2 with h2
  exact h2.symm

theorem demo_get1 : (rrfFusion demoVec demoGraph 60).get ⟨1, demo_idx1⟩ =
    mkFused (fusionScores demoVec demoGraph 60) demoB := by
  have h1 : (rrfFusion demoVec demoGraph 60)[1]? =
      some (mkFused (fusionScores demoVec demoGraph 60) demoB) := by
    rw [rrfFusion_def, List.getElem?_map, List.getElem?_map, demo_sortedPairs]
    rfl
  have h2 : (rrfFusion demoVec demoGraph 60)[1]? =
      some ((rrfFusion demoVec demoGraph 60).get ⟨1, demo_idx1⟩) := by
    rw [List.getElem?_eq_getElem demo_idx1]
    rfl
  rw [h1] at h2
  injection h2 with h2
  exact h2.symm

theorem demo_score_eq :
    ((rrfFusion demoVec demoGraph 60).get ⟨0, demo_idx0⟩).score =
      ((rrfFusion demoVec demoGraph 60).get ⟨1, demo_idx1⟩).score := by
  rw [demo_get0, demo_get1]
  exact demo_S_eq

/-- C5, witness: the tie-break behaviour at the concrete tied pair — the
vector hit at fused rank 0 and the graph hit at fused rank 1 share the
fused score `1/61`, and the earlier one indeed carries a vector rank. -/
theorem C5_rrf_tiebreak_witness :
    rankOfFrom 0 demoVec
      ((rrfFusion demoVec demoGraph 60).get ⟨0, demo_idx0⟩).id ≠ none := by
  obtain ⟨⟨ri, hri, -⟩, -⟩ := C5_rrf_tiebreak demoVec demoGraph 60
    (by decide) (by decide) 0 1 demo_idx0 demo_idx1 (by omega) demo_score_eq
  rw [hri]
  simp

/-! ## NL→Cypher safety filter (`app/services/nl_to_cypher.py`,
`app/routers/search.py`)

`NLToCypher._clean_cypher` strips surrounding whitespace and markdown code
fences from the LLM output, upper-cases the remainder and refuses it
(returns `None`) when any of the mutating keywords occurs as a substring;
`execute_nl_query` only reaches `graph_store.execute_cypher` with a
non-empty cleaned query; on refusal the `/search/nl-query` route is left
with no graph and unconditionally falls back to hybrid search.  Strings are
`List Char`; the store call is a function argument and the exact argument
lists passed to `execute_cypher` are returned explicitly. -/

/-- The `dangerous_keywords` list of `_clean_cypher`. -/
def dangerousKeywords : List (List Char) :=
  ["DELETE".toList, "REMOVE".toList, "DROP".toList,
   "CREATE".toList, "SET".toList, "MERGE".toList]

/-- `any(keyword in cypher_upper for keyword in dangerous_keywords)`. -/
def containsDangerous (u : List Char) : Bool :=
  dangerousKeywords.any (fun kw => containsSub kw u)

/-- The markdown-fence stripping of `_clean_cypher`: cut a leading
"```cypher", then a leading "```", then a trailing "```". -/
def stripFences (s1 : List Char) : List Char :=
  let s2 := if "```cypher".toList.isPrefixOf s1 then s1.drop 9 else s1
  let s3 := if "```".toList.isPrefixOf s2 then s2.drop 3 else s2
  if "```".toList.isSuffixOf s3 then s3.take (s3.length - 3) else s3

/-- `NLToCypher._clean_cypher`. -/
def cleanCypher (s : List Char) : Option (List Char) :=
  let s5 := pyStrip (stripFences (pyStrip s))
  if containsDangerous (upperStr s5) then none else some s5

/-- The list of query strings `execute_nl_query` passes to
`graph_store.execute_cypher` (`if not cypher:` bails out on `None` and the
empty string before the store is touched). -/
def nlQueryCalls (raw : List Char) : List (List Char) :=
  match cleanCypher raw with
  | none => []
  | some c => if c.isEmpty then [] else [c]

/-- The outcome record of `execute_nl_query` (the store execution is the
function argument `execFn`; a store exception would flip `success` but
never un-call the store, so totality of `execFn` is immaterial to the
claim). -/
structure NLQueryOutcome where
  success : Bool
  cypher : Option (List Char)
  results : List String
deriving Repr

/-- `NLToCypher.execute_nl_query`. -/
def executeNlQuery (execFn : List Char → List String) (raw : List Char) :
    NLQueryOutcome :=
  match cleanCypher raw with
  | none => { success := false, cypher := none, results := [] }
  | some c =>
      if c.isEmpty then { success := false, cypher := none, results := [] }
      else { success := true, cypher := some c, results := execFn c }

/-- A graph payload as the router sees it (only emptiness of `nodes`
matters to the fallback decision). -/
structure GraphPayload where
  nodes : List String
deriving Repr

/-- The fallback slice of the `/search/nl-query` route: a graph is derived
only from a successful non-empty Cypher execution, and hybrid search is
invoked whenever no non-empty graph resulted. -/
def nlQueryRoute (execFn : List Char → List String)
    (graphFromResults : List String → Option GraphPayload)
    (raw : List Char) : Bool × Bool :=
  let nl := executeNlQuery execFn raw
  let graph : Option GraphPayload :=
    if nl.success && !nl.results.isEmpty then graphFromResults nl.results
    else none
  let noGraph := match graph with
    | none => true
    | some g => g.nodes.isEmpty
  (noGraph, noGraph)

/-- Upper-case ASCII letter test, the alphabet of the keywords. -/
def isUpAlpha (c : Char) : Bool := decide ('A' ≤ c ∧ c ≤ 'Z')

/-- A word boundary: the adjacent character, if any, is not an upper-case
letter (in the upper-cased string all letters are upper-case). -/
def boundaryOk : Option Char → Prop
  | none => True
  | some c => isUpAlpha c = false

/-- `kw` occurs in `u` as a whole word: as a substring with word boundaries
on both sides. -/
def wholeWordIn (kw u : List Char) : Prop :=
  ∃ pre post, u = pre ++ kw ++ post ∧
    boundaryOk pre.getLast? ∧ boundaryOk post.head?

/-- The raw-string shadow of a whole-word occurrence in the upper-cased
string: a split of the raw string whose middle upper-cases to `kw`, with
word boundaries under upper-casing. -/
def wordShape (kw s : List Char) : Prop :=
  ∃ pre mid post, s = pre ++ mid ++ post ∧ upperStr mid = kw ∧
    boundaryOk (pre.getLast?.map upperChar) ∧
    boundaryOk (post.head?.map upperChar)

theorem isUpAlpha_upperChar_of_isWhitespace (c : Char)
    (h : c.isWhitespace = true) : isUpAlpha (upperChar c) = false := by
  simp only [Char.isWhitespace, Bool.or_eq_true, decide_eq_true_eq] at h
  rcases h with ((h | h) | h) | h <;> subst h <;> decide

theorem isUpAlpha_upperChar_backtick :
    isUpAlpha (upperChar (Char.ofNat 96)) = false := by decide

/-- Shape facts about the concrete keyword list: each keyword is nonempty
and starts and ends with an upper-case letter. -/
def kwOk (kw : List Char) : Bool :=
  !kw.isEmpty && kw.head?.all isUpAlpha && kw.getLast?.all isUpAlpha

theorem kwOk_of_mem {kw : List Char} (hkw : kw ∈ dangerousKeywords) :
    kwOk kw = true := by
  simp only [dangerousKeywords, List.mem_cons, List.not_mem_nil, or_false] at hkw
  rcases hkw with rfl | rfl | rfl | rfl | rfl | rfl <;> decide

theorem kwOk_ne_nil {kw : List Char} (h : kwOk kw = true) : kw ≠ [] := by
  intro he
  subst he
  simp [kwOk] at h

theorem kwOk_head {kw : List Char} (h : kwOk kw = true) :
    ∀ c, kw.head? = some c → isUpAlpha c = true := by
  intro c hc
  simp only [kwOk, Bool.and_eq_true, hc, Option.all_some] at h
  exact h.1.2

theorem kwOk_getLast {kw : List Char} (h : kwOk kw = true) :
    ∀ c, kw.getLast? = some c → isUpAlpha c = true := by
  intro c hc
  simp only [kwOk, Bool.and_eq_true, hc, Option.all_some] at h
  exact h.2

theorem kwOk_reverse {kw : List Char} (h : kwOk kw = true) :
    kwOk kw.reverse = true := by
  simp only [kwOk, Bool.and_eq_true] at h ⊢
  refine ⟨⟨?_, ?_⟩, ?_⟩
  · simpa [List.isEmpty_iff, List.reverse_eq_nil_iff] using h.1.1
  · rw [List.head?_reverse]
    exact h.2
  · rw [List.getLast?_reverse]
    exact h.1.2

/-- Mirror: a whole-word shadow in `s` is a whole-word shadow of the
reversed keyword in the reversed string. -/
theorem wordShape_reverse {kw s : List Char} (h : wordShape kw s) :
    wordShape kw.reverse s.reverse := by
  obtain ⟨pre, mid, post, heq, hmid, hbl, hbr⟩ := h
  refine ⟨post.reverse, mid.reverse, pre.reverse, ?_, ?_, ?_, ?_⟩
  · rw [heq]
    simp [List.reverse_append]
  · simp only [upperStr, List.map_reverse]
    rw [show List.map upperChar mid = kw from hmid]
  · rw [List.getLast?_reverse]
    exact hbr
  · rw [List.head?_reverse]
    exact hbl

/-- Dropping a leading character that upper-cases to a non-letter preserves
the whole-word shadow: the occurrence cannot start at that character, so it
lives entirely in the tail. -/
theorem wordShape_cons {kw : List Char} (c : Char) (t : List Char)
    (hc : isUpAlpha (upperChar c) = false) (hkw : kwOk kw = true)
    (h : wordShape kw (c :: t)) : wordShape kw t := by
  obtain ⟨pre, mid, post, heq, hmid, hbl, hbr⟩ := h
  cases pre with
  | nil =>
    simp only [List.nil_append] at heq
    cases mid with
    | nil =>
      exact absurd hmid.symm (by simpa [upperStr] using kwOk_ne_nil hkw)
    | cons m ms =>
      have hm : m = c := by
        have := congrArg List.head? heq
        simpa using this.symm
      have hhead : kw.head? = some (upperChar m) := by
        rw [← hmid]
        rfl
      have := kwOk_head hkw _ hhead
      rw [hm] at this
      rw [this] at hc
      cases hc
  | cons a pre' =>
    have ha : a = c ∧ t = pre' ++ mid ++ post := by
      rw [List.cons_append, List.cons_append] at heq
      exact ⟨(List.cons.injEq _ _ _ _ ▸ heq).1.symm,
             ((List.cons.injEq _ _ _ _ ▸ heq).2).symm ▸ rfl⟩
    refine ⟨pre', mid, post, ha.2, hmid, ?_, hbr⟩
    cases pre' with
    | nil => simp [boundaryOk]
    | cons b rest =>
      rwa [List.getLast?_cons_cons] at hbl

/-- `str.strip()` from the left preserves the whole-word shadow. -/
theorem wordShape_dropWhile {kw s : List Char} (hkw : kwOk kw = true)
    (h : wordShape kw s) :
    wordShape kw (s.dropWhile Char.isWhitespace) := by
  induction s with
  | nil => simpa using h
  | cons c t ih =>
    rw [List.dropWhile_cons]
    by_cases hws : c.isWhitespace = true
    · rw [if_pos hws]
      exact ih (wordShape_cons c t (isUpAlpha_upperChar_of_isWhitespace c hws)
        hkw h)
    · rw [if_neg (by simpa using hws)]
      exact h

/-- Dropping the leading letter-run "cypher" preserves the whole-word
shadow: an occurrence cannot start strictly inside the run (its left
neighbour would be a letter, violating the boundary) and cannot start at
the 'c' (only CREATE starts with C, and its second letter R is not Y). -/
theorem wordShape_cypher {kw : List Char} (t : List Char)
    (hkw : kw ∈ dangerousKeywords)
    (h : wordShape kw (Char.ofNat 99 :: Char.ofNat 121 :: Char.ofNat 112 ::
      Char.ofNat 104 :: Char.ofNat 101 :: Char.ofNat 114 :: t)) :
    wordShape kw t := by
  have hok := kwOk_of_mem hkw
  obtain ⟨pre, mid, post, heq, hmid, hbl, hbr⟩ := h
  rcases pre with _ | ⟨a1, _ | ⟨a2, _ | ⟨a3, _ | ⟨a4, _ | ⟨a5, _ | ⟨a6, pre6⟩⟩⟩⟩⟩⟩
  · -- occurrence at position 0: forces kw to start with C, i.e. CREATE
    simp only [List.nil_append] at heq
    cases mid with
    | nil => exact absurd hmid.symm (by simpa [upperStr] using kwOk_ne_nil hok)
    | cons m ms =>
      have hm : Char.ofNat 99 = m := by
        have := congrArg List.head? heq
        simpa using this
      subst hm
      simp only [dangerousKeywords, List.mem_cons, List.not_mem_nil,
        or_false] at hkw
      have hhead : kw.head? = some (upperChar (Char.ofNat 99)) := by
        rw [← hmid]
        rfl
      rcases hkw with rfl | rfl | rfl | rfl | rfl | rfl
      · exact absurd hhead (by decide)
      · exact absurd hhead (by decide)
      · exact absurd hhead (by decide)
      · -- CREATE: second letter of the occurrence would upper-case to Y ≠ R
        cases ms with
        | nil => exact absurd hmid (by decide)
        | cons m2 ms2 =>
          have hm2 : Char.ofNat 121 = m2 := by
            have := congrArg (fun l => l.head?.bind fun _ => l.tail.head?) heq
            simpa using this
          subst hm2
          have : upperChar (Char.ofNat 121) = Char.ofNat 82 := by
            have := congrArg (fun l => l.tail.head?) hmid
            simpa [upperStr] using this
          exact absurd this (by decide)
      · exact absurd hhead (by decide)
      · exact absurd hhead (by decide)
  · simp only [List.cons_append, List.nil_append, List.cons.injEq] at heq
    obtain ⟨h1, -⟩ := heq
    subst h1
    exact absurd (show isUpAlpha (upperChar (Char.ofNat 99)) = false from hbl)
      (by decide)
  · simp only [List.cons_append, List.nil_append, List.cons.injEq] at heq
    obtain ⟨h1, h2, -⟩ := heq
    subst h1; subst h2
    exact absurd (show isUpAlpha (upperChar (Char.ofNat 121)) = false from hbl)
      (by decide)
  · simp only [List.cons_append, List.nil_append, List.cons.injEq] at heq
    obtain ⟨h1, h2, h3, -⟩ := heq
    subst h1; subst h2; subst h3
    exact absurd (show isUpAlpha (upperChar (Char.ofNat 112)) = false from hbl)
      (by decide)
  · simp only [List.cons_append, List.nil_append, List.cons.injEq] at heq
    obtain ⟨h1, h2, h3, h4, -⟩ := heq
    subst h1; subst h2; subst h3; subst h4
    exact absurd (show isUpAlpha (upperChar (Char.ofNat 104)) = false from hbl)
      (by decide)
  · simp only [List.cons_append, List.nil_append, List.cons.injEq] at heq
    obtain ⟨h1, h2, h3, h4, h5, -⟩ := heq
    subst h1; subst h2; subst h3; subst h4; subst h5
    exact absurd (show isUpAlpha (upperChar (Char.ofNat 101)) = false from hbl)
      (by decide)
  · simp only [List.cons_append, List.cons.injEq] at heq
    obtain ⟨h1, h2, h3, h4, h5, h6, hrest⟩ := heq
    refine ⟨pre6, mid, post, by rw [hrest, List.append_assoc], hmid, ?_, hbr⟩
    cases pre6 with
    | nil => trivial
    | cons x xs =>
      simp only [List.getLast?_cons_cons] at hbl
      exact hbl

/-- A Boolean prefix splits the string. -/
theorem eq_append_drop_of_isPrefixOf {p s : List Char}
    (h : p.isPrefixOf s = true) : s = p ++ s.drop p.length := by
  rw [List.isPrefixOf_iff_prefix] at h
  obtain ⟨t, rfl⟩ := h
  rw [List.drop_left]

/-- `str.strip()` preserves the whole-word shadow. -/
theorem wordShape_pyStrip {kw s : List Char} (hok : kwOk kw = true)
    (h : wordShape kw s) : wordShape kw (pyStrip s) := by
  have h1 : wordShape kw (stripLeft s) := wordShape_dropWhile hok h
  have h2 := wordShape_reverse h1
  have h3 := wordShape_dropWhile (kwOk_reverse hok) h2
  have h4 := wordShape_reverse h3
  rw [List.reverse_reverse] at h4
  exact h4

/-- The markdown-fence stripping of `_clean_cypher` preserves the
whole-word shadow. -/
theorem wordShape_stripFences {kw s : List Char}
    (hkw : kw ∈ dangerousKeywords) (h : wordShape kw s) :
    wordShape kw (stripFences s) := by
  have hok := kwOk_of_mem hkw
  have hbk : isUpAlpha (upperChar (Char.ofNat 96)) = false :=
    isUpAlpha_upperChar_backtick
  have h1 : wordShape kw
      (if ("```cypher".toList).isPrefixOf s then s.drop 9 else s) := by
    split
    case isTrue hp =>
      have hs : s = Char.ofNat 96 :: Char.ofNat 96 :: Char.ofNat 96 ::
          Char.ofNat 99 :: Char.ofNat 121 :: Char.ofNat 112 ::
          Char.ofNat 104 :: Char.ofNat 101 :: Char.ofNat 114 ::
          s.drop 9 := eq_append_drop_of_isPrefixOf hp
      rw [hs] at h
      exact wordShape_cypher _ hkw
        (wordShape_cons _ _ hbk hok (wordShape_cons _ _ hbk hok
          (wordShape_cons _ _ hbk hok h)))
    case isFalse => exact h
  set s2 := if ("```cypher".toList).isPrefixOf s then s.drop 9 else s with hs2
  have h2 : wordShape kw
      (if ("```".toList).isPrefixOf s2 then s2.drop 3 else s2) := by
    split
    case isTrue hp =>
      have hs : s2 = Char.ofNat 96 :: Char.ofNat 96 :: Char.ofNat 96 ::
          s2.drop 3 := eq_append_drop_of_isPrefixOf hp
      rw [hs] at h1
      exact wordShape_cons _ _ hbk hok (wordShape_cons _ _ hbk hok
        (wordShape_cons _ _ hbk hok h1))
    case isFalse => exact h1
  set s3 := if ("```".toList).isPrefixOf s2 then s2.drop 3 else s2 with hs3
  have h3 : wordShape kw
      (if ("```".toList).isSuffixOf s3 then s3.take (s3.length - 3)
       else s3) := by
    split
    case isTrue hp =>
      have hp' : (("```".toList : List Char).reverse).isPrefixOf s3.reverse =
          true := hp
      have hrev := wordShape_reverse h2
      have hs : s3.reverse = Char.ofNat 96 :: Char.ofNat 96 ::
          Char.ofNat 96 :: s3.reverse.drop 3 :=
        eq_append_drop_of_isPrefixOf hp'
      rw [hs] at hrev
      have hdrop := wordShape_cons _ _ hbk (kwOk_reverse hok)
        (wordShape_cons _ _ hbk (kwOk_reverse hok)
          (wordShape_cons _ _ hbk (kwOk_reverse hok) hrev))
      have hback := wordShape_reverse hdrop
      rw [List.reverse_reverse] at hback
      rwa [List.drop_reverse, List.reverse_reverse] at hback
    case isFalse => exact h2
  exact h3

/-- A whole-word occurrence of a keyword in the upper-cased string casts a
whole-word shadow on the raw string. -/
theorem wordShape_of_wholeWordIn {kw s : List Char}
    (h : wholeWordIn kw (upperStr s)) : wordShape kw s := by
  obtain ⟨pre, post, heq, hbl, hbr⟩ := h
  have h1 : List.map upperChar s = pre ++ (kw ++ post) := by
    simpa [upperStr, List.append_assoc] using heq
  rw [List.map_eq_append_iff] at h1
  obtain ⟨s1, s23, rfl, hm1, hm23⟩ := h1
  rw [List.map_eq_append_iff] at hm23
  obtain ⟨s2, s3, rfl, hm2, hm3⟩ := hm23
  refine ⟨s1, s2, s3, by rw [List.append_assoc], hm2, ?_, ?_⟩
  · rw [← hm1, List.getLast?_map] at hbl
    exact hbl
  · rw [← hm3, List.head?_map] at hbr
    exact hbr

/-- A whole-word shadow makes the upper-cased string trip the keyword
scan. -/
theorem containsDangerous_of_wordShape {kw s : List Char}
    (hkw : kw ∈ dangerousKeywords) (h : wordShape kw s) :
    containsDangerous (upperStr s) = true := by
  obtain ⟨pre, mid, post, heq, hmid, -, -⟩ := h
  have hc : containsSub kw (upperStr s) = true := by
    rw [containsSub_iff]
    exact ⟨upperStr pre, upperStr post, by simp [heq, upperStr, ← hmid]⟩
  simp only [containsDangerous, List.any_eq_true]
  exact ⟨kw, hkw, hc⟩

/-- C1: for every LLM-produced candidate query containing one of the
keywords DELETE, REMOVE, DROP, CREATE, SET, MERGE case-insensitively as a
whole word, `_clean_cypher` refuses the query (returns `None`),
`execute_nl_query` never calls `graph_store.execute_cypher` and reports
failure, and the `/search/nl-query` route falls through to hybrid
search. -/
theorem C1_nl_keyword_refusal (raw : List Char)
    (execFn : List Char → List String)
    (graphFromResults : List String → Option GraphPayload)
    (hkw : ∃ kw ∈ dangerousKeywords, wholeWordIn kw (upperStr raw)) :
    cleanCypher raw = none ∧
    nlQueryCalls raw = [] ∧
    (executeNlQuery execFn raw).success = false ∧
    nlQueryRoute execFn graphFromResults raw = (true, true) := by
  obtain ⟨kw, hmem, hww⟩ := hkw
  have hok := kwOk_of_mem hmem
  have h0 := wordShape_of_wholeWordIn hww
  have h1 := wordShape_pyStrip hok h0
  have h2 := wordShape_stripFences hmem h1
  have h3 := wordShape_pyStrip hok h2
  have hc := containsDangerous_of_wordShape hmem h3
  have hclean : cleanCypher raw = none := by
    simp [cleanCypher, hc]
  refine ⟨hclean, ?_, ?_, ?_⟩
  · simp [nlQueryCalls, hclean]
  · simp [executeNlQuery, hclean]
  · simp [nlQueryRoute, executeNlQuery, hclean]

theorem C1_nl_keyword_refusal_witness :
    cleanCypher ("MATCH (n) DELETE n".toList) = none ∧
    nlQueryCalls ("MATCH (n) DELETE n".toList) = [] ∧
    (executeNlQuery (fun _ => []) ("MATCH (n) DELETE n".toList)).success =
      false ∧
    nlQueryRoute (fun _ => []) (fun _ => none)
      ("MATCH (n) DELETE n".toList) = (true, true) := by
  refine C1_nl_keyword_refusal _ (fun _ => []) (fun _ => none)
    ⟨"DELETE".toList, by decide,
     "MATCH (N) ".toList, " N".toList, by decide, ?_, ?_⟩
  · show isUpAlpha (Char.ofNat 32) = false
    decide
  · show isUpAlpha (Char.ofNat 32) = false
    decide

end GraphRag
